import Mathlib

/-!
Verification of the maharajah indexing/retrieval pipeline.

Shallow embedding of:
- `src/indexer/chunker.rs` (`split_by_lines`),
- `src/indexer/parser.rs` (`collect_chunks`, `parse_with_grammar`,
  `strip_comment_markers`, `strip_xml_tags`, `is_summary_kind`, `get_node_name`),
- `src/rag/retriever.rs` (`rrf_merge`),
- `src/db/store.rs` (list model of the row table: `get_file_hash`,
  `delete_file`, `insert`),
- `src/indexer/mod.rs` (`index_files` per-file loop).

Modelling conventions:
- Rust `&str`/`String` values are Lean `String`s; the string operations the
  code uses (`lines`, `trim`, `starts_with`, `strip_prefix`, `strip_suffix`,
  `join`) are modelled by structural functions over `String.data` so that all
  definitions are kernel-executable.
- `u32` line numbers are `Nat` with explicit `% 2^32` where the code does
  `as u32` arithmetic; `usize` values are plain `Nat`.
- `f32` scores are modelled as `ℚ` (exact arithmetic standing in for
  floating point).
- Vectors produced by the embedder are opaque payloads (`List ℚ`); the claims
  under verification never inspect vector contents.
- tree-sitter is an external C library; its output is modelled as an abstract
  node tree `TSNode` (kind, row span, sliced text, children), and the traversal
  `collect_chunks` is translated faithfully against that tree.
-/

/-! ## Definitions -/

/-- Model of Rust `str::split('\n')`: split a character list at every
newline; always returns at least one (possibly empty) segment. -/
def split_newlines : List Char → List (List Char)
  | [] => [[]]
  | '\n' :: rest => [] :: split_newlines rest
  | c :: rest =>
    match split_newlines rest with
    | [] => [[c]]
    | seg :: segs => (c :: seg) :: segs

/-- Drop a single trailing `'\r'` (the CRLF half that `str::lines` removes
from a segment that was terminated by `'\n'`). -/
def strip_cr (l : List Char) : List Char :=
  match l.getLast? with
  | some '\r' => l.dropLast
  | _ => l

/-- Model of Rust `str::lines()`: split at `'\n'`, strip a trailing `'\r'`
from every `'\n'`-terminated segment, and drop the final empty segment when
the string ends with `'\n'` (or is empty).  The final unterminated segment is
kept verbatim (a lone trailing `'\r'` is not stripped). -/
def rust_lines (s : String) : List String :=
  let parts := split_newlines s.data
  let body := (parts.dropLast.map strip_cr).map String.mk
  match parts.getLast? with
  | some [] => body
  | some lst => body ++ [String.mk lst]
  | none => body

/-- Model of Rust `[&str]::join("\n")` over the selected window lines. -/
def join_newlines : List String → String
  | [] => ""
  | l :: rest =>
    match rest with
    | [] => l
    | _ :: _ => l ++ "\n" ++ join_newlines rest

/-- Model of Rust `str::trim()`. Rust trims Unicode `White_Space`; the claims
under verification only meet ASCII whitespace, modelled via
`Char.isWhitespace`. -/
def rust_trim (s : String) : String :=
  String.mk (((s.data.dropWhile Char.isWhitespace).reverse.dropWhile
    Char.isWhitespace).reverse)

/-- Model of Rust `str::starts_with(pat)` for a string pattern. -/
def leads_with (pat : List Char) (l : List Char) : Bool :=
  match pat, l with
  | [], _ => true
  | _ :: _, [] => false
  | p :: ps, c :: cs => p = c && leads_with ps cs

/-- Model of Rust `str::strip_prefix(pat)` (`none` when `pat` is not a
leading segment). -/
def remove_leading (pat : List Char) (l : List Char) : Option (List Char)
  := match pat, l with
  | [], l => some l
  | _ :: _, [] => none
  | p :: ps, c :: cs => if p = c then remove_leading ps cs else none

/-- Model of Rust `str::strip_suffix(pat)`. -/
def remove_trailing (pat : List Char) (l : List Char) : Option (List Char) :=
  match remove_leading pat.reverse l.reverse with
  | some r => some r.reverse
  | none => none

/-- In-memory chunk produced by the chunker (struct `Chunk` in
src/indexer/parser.rs). -/
structure Chunk where
  language : String
  symbol : String
  content : String
  start_line : Nat
  end_line : Nat
  node_kind : String
  summary : Option String
deriving DecidableEq

/-- `2^32`, the modulus of Rust `u32` arithmetic. -/
def U32 : Nat := 4294967296

/-- Wrapping `u32` addition. -/
def u32add (a b : Nat) : Nat := (a + b) % U32

/-- Wrapping `u32` subtraction. -/
def u32sub (a b : Nat) : Nat := (a % U32 + (U32 - b % U32)) % U32

/-- The `while offset < lines.len()` loop of `split_by_lines`
(src/indexer/chunker.rs).  `fuel` is a structural bound on the number of
iterations: the loop advances `offset` by `max_lines ≥ 1` each round, so
`fuel = lines.length` iterations always reach the exit condition.  The
`0 < max_lines` conjunct totalizes the `max_lines = 0` case, on which the
Rust loop does not terminate; every theorem below assumes `0 < max_lines`. -/
def split_go (lines : List String) (symbol language node_kind : String)
    (summary : Option String) (start_offset max_lines : Nat) :
    Nat → Nat → List Chunk
  | _, 0 => []
  | offset, fuel + 1 =>
    if 0 < max_lines ∧ offset < lines.length then
      let e := min (offset + max_lines) lines.length
      let chunk_lines := (lines.drop offset).take (e - offset)
      { language := language
        symbol := symbol
        content := join_newlines chunk_lines
        start_line := u32add start_offset offset
        end_line := u32sub (u32add start_offset e) 1
        node_kind := node_kind
        summary := summary } ::
        split_go lines symbol language node_kind summary start_offset
          max_lines (offset + max_lines) fuel
    else []

/-- `split_by_lines` (src/indexer/chunker.rs): split `content` into
consecutive windows of at most `max_lines` lines; `start_offset` is the line
number of the first line of `content` within the original file.

Modelled from the spec: the chunker.rs snapshot carries an older 5-parameter
signature, while its only caller (`collect_chunks` in src/indexer/parser.rs)
passes two further arguments, `node.kind()` and `summary.as_deref()`, and the
spec's oversize policy states that windows inherit the parent's `symbol`,
`language` and `summary`; accordingly each emitted window carries the given
`node_kind` and `summary` unchanged.  The early return on
`lines.is_empty()` is subsumed by the loop guard. -/
def split_by_lines (content symbol language : String)
    (start_offset max_lines : Nat) (node_kind : String)
    (summary : Option String) : List Chunk :=
  let lines := rust_lines content
  split_go lines symbol language node_kind summary start_offset max_lines
    0 lines.length

/-- The character fold of `strip_xml_tags`: `'<'` enters tag state (and is
dropped), `'>'` leaves it (and is dropped), other characters are kept only
outside a tag. -/
def xml_strip_go : Bool → List Char → List Char
  | _, [] => []
  | in_tag, c :: rest =>
    if c = '<' then xml_strip_go true rest
    else if c = '>' then xml_strip_go false rest
    else if in_tag then xml_strip_go in_tag rest
    else c :: xml_strip_go in_tag rest

/-- `strip_xml_tags` (src/indexer/parser.rs): remove `<...>` substrings from
every line, trim each line, drop lines that became empty, join with
newlines. -/
def strip_xml_tags (s : String) : String :=
  join_newlines (((rust_lines s).map (fun line =>
    rust_trim (String.mk (xml_strip_go false line.data)))).filter
    (fun l => !l.data.isEmpty))

/-- `strip_comment_markers` (src/indexer/parser.rs): strip comment delimiters
from a raw comment node's text; for C# line comments additionally strip XML
doc tags. -/
def strip_comment_markers (raw lang : String) : String :=
  let trimmed := rust_trim raw
  if leads_with "/*".data trimmed.data then
    let inner := ((remove_leading "/**".data trimmed.data).or
      (remove_leading "/*".data trimmed.data)).getD trimmed.data
    let inner2 := (remove_trailing "*/".data inner).getD inner
    join_newlines (((rust_lines (String.mk inner2)).map (fun l =>
      let s := rust_trim l
      rust_trim (String.mk ((remove_leading ['*'] s.data).getD s.data)))).filter
      (fun s => !s.data.isEmpty))
  else
    let line_marker : String :=
      if lang = "rust" ∨ lang = "csharp" ∨ lang = "fsharp" then
        (if leads_with "///".data trimmed.data then "///" else "//")
      else if lang = "python" ∨ lang = "ruby" then "#"
      else if lang = "haskell" then
        (if leads_with "-- |".data trimmed.data then "-- |" else "--")
      else "//"
    let stripped := join_newlines ((rust_lines trimmed).map (fun l =>
      let s := rust_trim l
      rust_trim (String.mk ((remove_leading line_marker.data s.data).getD s.data))))
    if lang = "csharp" then strip_xml_tags stripped else stripped

/-- Abstract model of a tree-sitter node: its kind, its zero-based start and
end rows (`start_position().row`, `end_position().row`), the source slice
`content[node.byte_range()]`, and its children in document order. -/
inductive TSNode where
  | mk (kind : String) (startRow endRow : Nat) (text : String)
      (children : List TSNode)

def TSNode.kind : TSNode → String
  | .mk k _ _ _ _ => k

def TSNode.startRow : TSNode → Nat
  | .mk _ sr _ _ _ => sr

def TSNode.endRow : TSNode → Nat
  | .mk _ _ er _ _ => er

def TSNode.text : TSNode → String
  | .mk _ _ _ t _ => t

def TSNode.children : TSNode → List TSNode
  | .mk _ _ _ _ ch => ch

/-- First whitespace-delimited token of a string
(`text.split_whitespace().next().unwrap_or("")`). -/
def first_whitespace_token (s : String) : String :=
  String.mk ((s.data.dropWhile Char.isWhitespace).takeWhile
    (fun c => !c.isWhitespace))

mutual

/-- `get_node_name` (src/indexer/parser.rs): scan the node's children for the
first identifier-like child kind; empty string when none is found. -/
def get_node_name : TSNode → String
  | .mk _ _ _ _ ch => node_name_of_children ch

/-- The `for child in node.children` loop of `get_node_name`. -/
def node_name_of_children : List TSNode → String
  | [] => ""
  | c :: rest =>
    if c.kind = "identifier" ∨ c.kind = "type_identifier" ∨
        c.kind = "simple_identifier" ∨ c.kind = "name" then c.text
    else if c.kind = "constant" then c.text
    else if c.kind = "variable" then c.text
    else if c.kind = "function_declaration_left" ∨
        c.kind = "value_declaration_left" then first_whitespace_token c.text
    else if c.kind = "function_or_value_defn" then
      let name := get_node_name c
      if name ≠ "" then name else node_name_of_children rest
    else node_name_of_children rest

end

/-- `is_summary_kind` (src/indexer/parser.rs): node kinds for which a
docstring/comment summary is extracted. -/
def is_summary_kind (lang kind : String) : Bool :=
  if lang = "rust" then
    kind = "function_item" || kind = "impl_item" || kind = "trait_item" ||
    kind = "struct_item" || kind = "enum_item"
  else if lang = "python" then
    kind = "function_definition" || kind = "class_definition" ||
    kind = "decorated_definition"
  else if lang = "javascript" then
    kind = "function_declaration" || kind = "class_declaration" ||
    kind = "method_definition" || kind = "arrow_function" ||
    kind = "generator_function_declaration"
  else if lang = "typescript" || lang = "tsx" then
    kind = "function_declaration" || kind = "class_declaration" ||
    kind = "method_definition" || kind = "interface_declaration"
  else if lang = "java" then
    kind = "method_declaration" || kind = "class_declaration" ||
    kind = "interface_declaration" || kind = "constructor_declaration"
  else if lang = "csharp" then
    kind = "method_declaration" || kind = "class_declaration" ||
    kind = "interface_declaration" || kind = "constructor_declaration" ||
    kind = "property_declaration"
  else if lang = "go" then
    kind = "function_declaration" || kind = "method_declaration"
  else if lang = "scala" then
    kind = "function_definition" || kind = "class_definition" ||
    kind = "trait_definition" || kind = "given_definition" ||
    kind = "extension_definition"
  else if lang = "haskell" then
    kind = "function" || kind = "class" || kind = "instance_decl"
  else if lang = "ruby" then
    kind = "method" || kind = "class" || kind = "module" ||
    kind = "singleton_method" || kind = "singleton_class"
  else if lang = "fsharp" then
    kind = "value_declaration" || kind = "type_defn"
  else false

/-- `RUST_KINDS` (src/indexer/parser.rs). -/
def RUST_KINDS : List String :=
  ["function_item", "impl_item", "struct_item", "enum_item", "trait_item",
   "type_item", "const_item", "static_item", "mod_item", "macro_definition",
   "union_item"]

/-- `prune_kinds_for` (src/indexer/parser.rs). -/
def prune_kinds_for (lang : String) : List String :=
  if lang = "haskell" then ["signature"] else []

mutual

/-- `collect_chunks` (src/indexer/parser.rs): emit a chunk for every node
whose kind is interesting (splitting oversize nodes by line windows), never
descending into matched or pruned nodes.  `summaryFn` stands for
`extract_comment node content lang` (a walk over the node's preceding
siblings, irrelevant to the claims below); the node's text field stands for
`content[node.byte_range()]`.  Line arithmetic follows the `as u32` casts of
the source. -/
def collect_chunks (lang_name : String) (interesting prune : List String)
    (max_chunk_lines : Nat) (summaryFn : TSNode → Option String) :
    TSNode → List Chunk
  | .mk kind sr er text ch =>
    if interesting.contains kind then
      let start_line := sr % U32
      let end_line := er % U32
      let symbol := get_node_name (.mk kind sr er text ch)
      let line_count := u32add (u32sub end_line start_line) 1
      let summary := if is_summary_kind lang_name kind then
        summaryFn (.mk kind sr er text ch) else none
      if line_count > max_chunk_lines then
        split_by_lines text symbol lang_name start_line max_chunk_lines kind
          summary
      else
        [{ language := lang_name, symbol := symbol, content := text,
           start_line := start_line, end_line := end_line, node_kind := kind,
           summary := summary }]
    else if prune.contains kind then []
    else collect_chunks_list lang_name interesting prune max_chunk_lines
      summaryFn ch

/-- The recursion of `collect_chunks` over a node's children. -/
def collect_chunks_list (lang_name : String) (interesting prune : List String)
    (max_chunk_lines : Nat) (summaryFn : TSNode → Option String) :
    List TSNode → List Chunk
  | [] => []
  | n :: rest =>
    collect_chunks lang_name interesting prune max_chunk_lines summaryFn n ++
      collect_chunks_list lang_name interesting prune max_chunk_lines
        summaryFn rest

end

/-- `parse_with_grammar` (src/indexer/parser.rs).  `tree = none` models both
a grammar-load failure and `parser.parse` returning nothing; in either case
the whole file is line-windowed with empty symbol and node kind. -/
def parse_with_grammar (tree : Option TSNode) (content lang_name : String)
    (interesting : List String) (max_chunk_lines : Nat)
    (summaryFn : TSNode → Option String) : List Chunk :=
  match tree with
  | none => split_by_lines content "" lang_name 0 max_chunk_lines "" none
  | some root =>
    let chunks := collect_chunks lang_name interesting
      (prune_kinds_for lang_name) max_chunk_lines summaryFn root
    if chunks.isEmpty then
      split_by_lines content "" lang_name 0 max_chunk_lines "" none
    else chunks

/-- Opaque stand-in for an embedding vector (`Vec<f32>`); the claims never
inspect vector contents. -/
abbrev Vec := List ℚ

/-- `SearchResult` (src/db/store.rs); `score` is modelled in exact
arithmetic. -/
structure SearchResult where
  id : String
  file_path : String
  start_line : Nat
  end_line : Nat
  symbol : String
  content : String
  score : ℚ
  summary : Option String
deriving DecidableEq

/-- The RRF constant `K` (src/rag/retriever.rs). -/
def RRF_K : ℚ := 60

/-- One list contribution `1 / (K + (rank + 1))` where `rank` is the
zero-based enumeration index (src/rag/retriever.rs). -/
def rrf_val (rank : Nat) : ℚ := 1 / (RRF_K + (rank + 1 : ℚ))

/-- One `scores.entry(r.id).and_modify(|(_, s)| *s += rrf).or_insert((r, rrf))`
step, on the insertion-ordered association list standing for the `HashMap`'s
contents: an existing entry keeps its stored record and gains `rrf`; a new id
is appended. -/
def rrf_step (acc : List (SearchResult × ℚ)) (r : SearchResult) (rrf : ℚ) :
    List (SearchResult × ℚ) :=
  if acc.any (fun e => e.1.id == r.id) then
    acc.map (fun e => if e.1.id == r.id then (e.1, e.2 + rrf) else e)
  else acc ++ [(r, rrf)]

/-- One `for (rank, r) in list.into_iter().enumerate()` loop of `rrf_merge`,
starting from enumeration index `rank`. -/
def rrf_fold : List (SearchResult × ℚ) → List SearchResult → Nat →
    List (SearchResult × ℚ)
  | acc, [], _ => acc
  | acc, r :: rest, rank => rrf_fold (rrf_step acc r (rrf_val rank)) rest
      (rank + 1)

/-- The full contents of the `scores` map after both loops of `rrf_merge`:
the content list is folded in first, then the summary list. -/
def rrf_scores (content_results summary_results : List SearchResult) :
    List (SearchResult × ℚ) :=
  rrf_fold (rrf_fold [] content_results 0) summary_results 0

/-- Stable insertion (descending by score) used to model Rust's stable
`sort_by`: the new element goes in front of the first element whose score is
not larger, so pre-sort order is preserved on ties. -/
def sort_desc_insert (x : SearchResult × ℚ) :
    List (SearchResult × ℚ) → List (SearchResult × ℚ)
  | [] => [x]
  | y :: ys => if y.2 ≤ x.2 then x :: y :: ys else y :: sort_desc_insert x ys

/-- Stable descending sort by score.  Rust's `sort_by` with comparator
`b.1.partial_cmp(&a.1)` is a stable descending sort; a stable sort's output
is determined by the comparator and the input order, so any stable
implementation is extensionally the same function. -/
def sort_desc : List (SearchResult × ℚ) → List (SearchResult × ℚ)
  | [] => []
  | x :: xs => sort_desc_insert x (sort_desc xs)

/-- `rrf_merge` (src/rag/retriever.rs).  `iterate` stands for
`HashMap::into_values`, whose order is unspecified: the theorems below
quantify over any `iterate` that permutes the map's entries
(`(iterate m).Perm m`). -/
def rrf_merge
    (iterate : List (SearchResult × ℚ) → List (SearchResult × ℚ))
    (content_results summary_results : List SearchResult) (limit : Nat) :
    List SearchResult :=
  let merged := iterate (rrf_scores content_results summary_results)
  ((sort_desc merged).take limit).map (fun e => { e.1 with score := e.2 })

/-- `ChunkRecord` (src/db/store.rs). -/
structure ChunkRecord where
  id : String
  file_path : String
  file_hash : String
  language : String
  symbol : String
  content : String
  start_line : Nat
  end_line : Nat
  vector : Vec
  summary : Option String
  summary_vector : Option Vec
deriving DecidableEq

/-- The lancedb table, modelled as its rows in insertion order. -/
abbrev StoreRows := List ChunkRecord

/-- `Store::get_file_hash` (src/db/store.rs): `file_hash` of the first row
whose `file_path` matches, or none. -/
def get_file_hash (store : StoreRows) (file_path : String) : Option String :=
  (store.find? (fun r => r.file_path == file_path)).map (fun r => r.file_hash)

/-- `Store::delete_file` (src/db/store.rs): remove every row whose
`file_path` matches. -/
def delete_file (store : StoreRows) (file_path : String) : StoreRows :=
  store.filter (fun r => !(r.file_path == file_path))

/-- `Store::insert` (src/db/store.rs): batch append; no-op on empty input. -/
def insert_rows (store : StoreRows) (records : List ChunkRecord) : StoreRows :=
  if records.isEmpty then store else store ++ records

/-- Per-file input to the indexer loop: the path relative to the target root,
the SHA-256 hex of the file's bytes (`compute_hash`, via the external sha2
crate, kept abstract), and the `String::from_utf8` decode result (`none` for
non-UTF-8 bytes). -/
structure FileInput where
  rel_path : String
  file_hash : String
  utf8 : Option String

/-- Running state of `index_files`: the table rows plus the two counters. -/
structure IndexState where
  store : StoreRows
  indexed : Nat
  skipped : Nat
deriving DecidableEq

/-- The record-building loop of `index_files` (src/indexer/mod.rs):
zip chunks with their embeddings, drop a chunk whose content embedding
failed, and set `id = format!("{}:{}", rel_path, chunk.start_line)`. -/
def build_records (rel_path file_hash : String) (chunks : List Chunk)
    (vectors summary_vectors : List (Option Vec)) : List ChunkRecord :=
  ((chunks.zip vectors).zip summary_vectors).filterMap (fun p =>
    match p.1.2 with
    | none => none
    | some v => some
      { id := rel_path ++ ":" ++ Nat.repr p.1.1.start_line
        file_path := rel_path
        file_hash := file_hash
        language := p.1.1.language
        symbol := p.1.1.symbol
        content := p.1.1.content
        start_line := p.1.1.start_line
        end_line := p.1.1.end_line
        vector := v
        summary := p.1.1.summary
        summary_vector := p.2 })

/-- The tail of one `index_files` iteration after hash reconciliation
(src/indexer/mod.rs): UTF-8 decode (skip on failure), chunk (skip when
empty), embed each chunk's content and summary, insert the surviving
records.  `parse` stands for `parser::parse_file(path, ·, max_chunk_lines)`
for this file's path; `embed` stands for `emb.embed(·).ok()`. -/
def index_file_body (parse : String → String → List Chunk)
    (embed : String → Option Vec) (store : StoreRows) (indexed skipped : Nat)
    (f : FileInput) : IndexState :=
  match f.utf8 with
  | none => ⟨store, indexed, skipped + 1⟩
  | some content =>
    let chunks := parse f.rel_path content
    if chunks.isEmpty then ⟨store, indexed, skipped + 1⟩
    else
      let vectors := chunks.map (fun c => embed c.content)
      let summary_vectors := chunks.map (fun c => c.summary.bind embed)
      ⟨insert_rows store
        (build_records f.rel_path f.file_hash chunks vectors summary_vectors),
       indexed + 1, skipped⟩

/-- One iteration of the `for path in files` loop of `index_files`
(src/indexer/mod.rs): when not reindexing, a stored hash equal to the current
hash skips the file, a different stored hash deletes the file's rows before
proceeding. -/
def index_file_step (parse : String → String → List Chunk)
    (embed : String → Option Vec) (reindex : Bool) (st : IndexState)
    (f : FileInput) : IndexState :=
  if reindex then
    index_file_body parse embed st.store st.indexed st.skipped f
  else
    match get_file_hash st.store f.rel_path with
    | some stored_hash =>
      if stored_hash = f.file_hash then
        ⟨st.store, st.indexed, st.skipped + 1⟩
      else
        index_file_body parse embed (delete_file st.store f.rel_path)
          st.indexed st.skipped f
    | none => index_file_body parse embed st.store st.indexed st.skipped f

/-- `index_files` (src/indexer/mod.rs), folded over the walked files. -/
def index_files (parse : String → String → List Chunk)
    (embed : String → Option Vec) (reindex : Bool) :
    IndexState → List FileInput → IndexState
  | st, [] => st
  | st, f :: rest =>
    index_files parse embed reindex (index_file_step parse embed reindex st f)
      rest

/-- One `index` run (src/indexer/mod.rs `run`): with `--reindex` the table is
dropped and recreated by `Store::open_or_create` before the loop, so the run
starts from an empty table; otherwise it starts from the existing rows. -/
def run_index (parse : String → String → List Chunk)
    (embed : String → Option Vec) (reindex : Bool) (prev : StoreRows)
    (files : List FileInput) : IndexState :=
  index_files parse embed reindex ⟨if reindex then [] else prev, 0, 0⟩ files

/-- Well-formedness of a modelled tree-sitter node: start row at most end
row, rows fit in `u32` without wrapping, and the node's position plus its
slice's line count stays within `u32` (true of any real source file); all
recursively for the children. -/
inductive NodeWF : TSNode → Prop where
  | mk (kind : String) (sr er : Nat) (text : String) (ch : List TSNode) :
      sr ≤ er → er + 1 < U32 → sr + (rust_lines text).length ≤ U32 →
      (∀ c ∈ ch, NodeWF c) → NodeWF (.mk kind sr er text ch)

/-- `is_doc_comment` (src/indexer/parser.rs): whether a comment node counts
as documentation for its language. -/
def is_doc_comment (raw lang kind : String) : Bool :=
  let trimmed := rust_trim raw
  if lang = "rust" then
    leads_with "///".data trimmed.data || leads_with "/**".data trimmed.data
  else if lang = "csharp" ∨ lang = "fsharp" then
    leads_with "///".data trimmed.data || leads_with "/**".data trimmed.data
  else if lang = "java" then leads_with "/**".data trimmed.data
  else if lang = "javascript" ∨ lang = "typescript" ∨ lang = "tsx" then
    leads_with "/**".data trimmed.data
  else if lang = "scala" then leads_with "/**".data trimmed.data
  else if lang = "haskell" then
    kind = "haddock" || leads_with "\x7b-|".data trimmed.data
  else true

/-- Association-list lookup by result id (proof-side view of the `scores`
map). -/
def entry_lookup : List (SearchResult × ℚ) → String → Option (SearchResult × ℚ)
  | [], _ => none
  | e :: rest, i => if e.1.id = i then some e else entry_lookup rest i

/-- Total contribution a list gives to an id when its enumeration starts at
`rank`: the sum of `1/(K + rank + 1)` over all occurrences of the id. -/
def occ_contribution : List SearchResult → Nat → String → ℚ
  | [], _, _ => 0
  | r :: rest, rank, i =>
    (if r.id = i then rrf_val rank else 0) + occ_contribution rest (rank + 1) i

/-- Spec-side rank formula for one list: `1 / (K + rank)` where rank starts
at 1 at the head of the list (`rrf_val idx = 1 / (K + idx + 1)` for the
zero-based first index), and zero when the id is absent. -/
def list_contribution (l : List SearchResult) (i : String) : ℚ :=
  match l.findIdx? (fun r => r.id == i) with
  | some idx => rrf_val idx
  | none => 0

/-- Spec-side fused score of an id: the sum of its two list contributions,
a missing list contributing zero. -/
def fused_score (cs ss : List SearchResult) (i : String) : ℚ :=
  list_contribution cs i + list_contribution ss i

/-- Ids stored in the scores map, in insertion order. -/
def entry_ids (m : List (SearchResult × ℚ)) : List String :=
  m.map (fun e => e.1.id)

/-- Concrete result used in the C2/C3/C9 instances: id `"a"`, from the
content search. -/
def sr_a : SearchResult := ⟨"a", "fa.rs", 0, 0, "", "ca", 0, none⟩

/-- Concrete result with the distinct id `"b"`, from the summary search. -/
def sr_b : SearchResult := ⟨"b", "fb.rs", 1, 1, "", "cb", 0, none⟩

/-- Concrete summary-search result sharing `sr_a`'s id but no other field. -/
def sr_a2 : SearchResult := ⟨"a", "dup.rs", 2, 2, "x", "cc", 0, some "s"⟩

/-- Value of a decimal digit character. -/
def digit_val (c : Char) : Nat := c.toNat - 48

/-- Decimal value of a digit string (used to show `Nat.repr` is injective). -/
def digits_val (l : List Char) : Nat :=
  l.foldl (fun a c => 10 * a + digit_val c) 0

/-- Table invariant: every row's id is its path, a colon, and its decimal
start line, and ids are pairwise distinct. -/
def StoreOK (store : StoreRows) : Prop :=
  (∀ r ∈ store, r.id = r.file_path ++ ":" ++ Nat.repr r.start_line) ∧
  (store.map (fun r => r.id)).Nodup

/-- Modelled tree-sitter parse of the one-line Rust file
`fn a() {} fn b() {}`: a source file with two `function_item` children, both
on row 0. -/
def tree_cx : TSNode :=
  .mk "source_file" 0 0 "fn a() {} fn b() {}"
    [.mk "function_item" 0 0 "fn a() {}"
      [.mk "fn" 0 0 "fn" [], .mk "identifier" 0 0 "a" []],
     .mk "function_item" 0 0 "fn b() {}"
      [.mk "fn" 0 0 "fn" [], .mk "identifier" 0 0 "b" []]]

/-- `parse_file` for that one file: dispatch on the `.rs` extension to the
Rust grammar and collect over the modelled tree. -/
def parse_cx : String → String → List Chunk := fun _ content =>
  parse_with_grammar (some tree_cx) content "rust" RUST_KINDS 40
    (fun _ => none)

/-- The one-line two-function file as indexer input. -/
def file_cx : FileInput := ⟨"t.rs", "h0", some "fn a() {} fn b() {}"⟩

/-! ## Theorems -/

/-- Every chunk emitted by the window loop carries the symbol, language,
node kind and summary it was given. -/
theorem split_go_fields (lines : List String) (sym lang nk : String)
    (summ : Option String) (off m : Nat) :
    ∀ fuel offset c, c ∈ split_go lines sym lang nk summ off m offset fuel →
      c.symbol = sym ∧ c.language = lang ∧ c.summary = summ ∧
        c.node_kind = nk := by
  intro fuel
  induction fuel with
  | zero => intro offset c hc; simp [split_go] at hc
  | succ fuel ih =>
    intro offset c hc
    rw [split_go] at hc
    split at hc
    · rcases List.mem_cons.mp hc with h | h
      · subst h; exact ⟨rfl, rfl, rfl, rfl⟩
      · exact ih _ _ h
    · simp at hc

/-- Index-wise characterization of the window loop: starting at `offset`,
the `k`-th emitted window covers lines `[offset + k*m, min (offset+k*m+m) L)`
(still in wrapped `u32` form). -/
theorem split_go_getElem (lines : List String) (sym lang nk : String)
    (summ : Option String) (off m : Nat) (hm : 0 < m) :
    ∀ fuel offset k, lines.length - offset ≤ fuel →
      (split_go lines sym lang nk summ off m offset fuel)[k]? =
        if offset + k * m < lines.length then
          some { language := lang, symbol := sym,
                 content := join_newlines ((lines.drop (offset + k * m)).take
                   (min (offset + k * m + m) lines.length - (offset + k * m))),
                 start_line := u32add off (offset + k * m),
                 end_line := u32sub
                   (u32add off (min (offset + k * m + m) lines.length)) 1,
                 node_kind := nk, summary := summ }
        else none := by
  intro fuel
  induction fuel with
  | zero =>
    intro offset k hfuel
    have hoff : lines.length ≤ offset := by omega
    rw [split_go]
    rw [if_neg (by omega)]
    simp
  | succ fuel ih =>
    intro offset k hfuel
    rw [split_go]
    by_cases hlt : offset < lines.length
    · rw [if_pos ⟨hm, hlt⟩]
      cases k with
      | zero =>
        rw [if_pos (by omega)]
        simp only [List.getElem?_cons_zero, Option.some.injEq]
        have : offset + 0 * m = offset := by ring
        rw [this]
      | succ k =>
        rw [List.getElem?_cons_succ]
        rw [ih (offset + m) k (by omega)]
        have harith : offset + m + k * m = offset + (k + 1) * m := by ring
        rw [harith]
    · rw [if_neg (by tauto)]
      rw [if_neg (by omega)]
      simp

/-- Mod-free description of the emitted windows under a no-overflow bound on
the parent's position: the `k`-th window starts at line `off + k*m` and ends
at line `off + min (k*m + m) L - 1`. -/
theorem split_by_lines_getElem (content sym lang : String) (off m : Nat)
    (nk : String) (summ : Option String) (hm : 0 < m)
    (hov : off + (rust_lines content).length ≤ U32) :
    ∀ k, (split_by_lines content sym lang off m nk summ)[k]? =
      if k * m < (rust_lines content).length then
        some { language := lang, symbol := sym,
               content := join_newlines
                 (((rust_lines content).drop (k * m)).take
                   (min (k * m + m) (rust_lines content).length - k * m)),
               start_line := off + k * m,
               end_line :=
                 off + min (k * m + m) (rust_lines content).length - 1,
               node_kind := nk, summary := summ }
      else none := by
  intro k
  unfold split_by_lines
  rw [split_go_getElem _ _ _ _ _ _ _ hm _ 0 k (by omega)]
  simp only [Nat.zero_add]
  by_cases hk : k * m < (rust_lines content).length
  · rw [if_pos hk, if_pos hk]
    have hstart : u32add off (k * m) = off + k * m := by
      unfold u32add U32 at *
      omega
    have hend :
        u32sub (u32add off (min (k * m + m) (rust_lines content).length)) 1 =
          off + min (k * m + m) (rust_lines content).length - 1 := by
      unfold u32sub u32add U32 at *
      omega
    rw [hstart, hend]
  · rw [if_neg hk, if_neg hk]

/-- Membership in the child recursion of `collect_chunks` is membership in
some child's chunks. -/
theorem mem_collect_chunks_list (lang : String)
    (interesting prune : List String) (m : Nat)
    (sfn : TSNode → Option String) :
    ∀ l c, c ∈ collect_chunks_list lang interesting prune m sfn l ↔
      ∃ n ∈ l, c ∈ collect_chunks lang interesting prune m sfn n := by
  intro l
  induction l with
  | nil => intro c; simp [collect_chunks_list]
  | cons n rest ih =>
    intro c
    rw [collect_chunks_list, List.mem_append]
    constructor
    · rintro (h | h)
      · exact ⟨n, List.mem_cons_self _ _, h⟩
      · obtain ⟨n2, hn2, hc⟩ := (ih c).mp h
        exact ⟨n2, List.mem_cons_of_mem _ hn2, hc⟩
    · rintro ⟨n2, hn2, hc⟩
      rcases List.mem_cons.mp hn2 with h | h
      · subst h; exact Or.inl hc
      · exact Or.inr ((ih c).mpr ⟨n2, h, hc⟩)

/-- Let-free unfolding of one `collect_chunks` step, for use in proofs. -/
theorem collect_chunks_eq (lang : String) (interesting prune : List String)
    (m : Nat) (sfn : TSNode → Option String) (kind : String) (sr er : Nat)
    (text : String) (ch : List TSNode) :
    collect_chunks lang interesting prune m sfn (.mk kind sr er text ch) =
      if interesting.contains kind then
        (if u32add (u32sub (er % U32) (sr % U32)) 1 > m then
          split_by_lines text (get_node_name (.mk kind sr er text ch)) lang
            (sr % U32) m kind
            (if is_summary_kind lang kind then sfn (.mk kind sr er text ch)
             else none)
        else
          [{ language := lang,
             symbol := get_node_name (.mk kind sr er text ch),
             content := text, start_line := sr % U32, end_line := er % U32,
             node_kind := kind,
             summary := if is_summary_kind lang kind then
               sfn (.mk kind sr er text ch) else none }])
      else if prune.contains kind then []
      else collect_chunks_list lang interesting prune m sfn ch := by
  rw [collect_chunks]

/-- Every chunk emitted by `collect_chunks` on a well-formed tree spans at
most `max_chunk_lines` lines (and its start line is at most its end line). -/
theorem collect_chunks_line_bound (lang : String)
    (interesting prune : List String) (m : Nat)
    (sfn : TSNode → Option String) (hm : 0 < m) :
    ∀ node, NodeWF node →
      ∀ c ∈ collect_chunks lang interesting prune m sfn node,
        c.start_line ≤ c.end_line ∧ c.end_line + 1 ≤ c.start_line + m := by
  intro node hwf
  induction hwf with
  | mk kind sr er text ch h1 h2 h3 hch ih =>
    intro c hc
    rw [collect_chunks_eq] at hc
    split at hc
    · split at hc
      · -- oversize: the node is replaced by line windows
        obtain ⟨k, hk⟩ := List.mem_iff_getElem?.mp hc
        have hsr : sr % U32 = sr :=
          Nat.mod_eq_of_lt (by simp only [U32] at h2 ⊢; omega)
        have hov : sr % U32 + (rust_lines text).length ≤ U32 := by
          rw [hsr]; exact h3
        rw [split_by_lines_getElem text _ lang (sr % U32) m kind _ hm hov k]
          at hk
        split at hk
        · rename_i hklt
          rw [Option.some.injEq] at hk
          subst hk
          refine ⟨?_, ?_⟩ <;>
          · dsimp only
            simp only [U32] at *
            omega
        · simp at hk
      · -- in-range node: the branch condition bounds the line count
        rw [List.mem_singleton] at hc
        subst hc
        rename_i hcount
        rw [not_lt] at hcount
        refine ⟨?_, ?_⟩ <;>
        · dsimp only
          simp only [u32add, u32sub, U32] at *
          omega
    · split at hc
      · simp at hc
      · obtain ⟨n, hn, hcn⟩ := (mem_collect_chunks_list lang interesting
          prune m sfn ch c).mp hc
        exact ih n hn c hcn

/-- C4: for every chunk emitted by the chunker after oversize splitting,
`end_line - start_line + 1 ≤ max_chunk_lines`; the windows produced for one
oversize parent are non-overlapping, contiguous, in file order, successive
window starts advance by the window size, and the first window starts at the
parent's start line.  The first conjunct covers every chunk `collect_chunks`
emits on a well-formed tree; the remaining conjuncts give the window
geometry of `split_by_lines` (first start, per-window span bound, and
adjacency of consecutive windows) under the same no-overflow bound
`NodeWF` guarantees at the call site. -/
theorem C4_oversize_split_geometry (lang : String)
    (interesting prune : List String) (m : Nat) (sfn : TSNode → Option String)
    (node : TSNode) (content sym lng nk : String) (off : Nat)
    (summ : Option String) (hm : 0 < m) (hwf : NodeWF node)
    (hov : off + (rust_lines content).length ≤ U32) :
    (∀ c ∈ collect_chunks lang interesting prune m sfn node,
      c.start_line ≤ c.end_line ∧ c.end_line + 1 ≤ c.start_line + m)
    ∧ (∀ c, (split_by_lines content sym lng off m nk summ).head? = some c →
        c.start_line = off)
    ∧ (∀ k c, (split_by_lines content sym lng off m nk summ)[k]? = some c →
        c.start_line = off + k * m ∧ c.start_line ≤ c.end_line ∧
          c.end_line + 1 ≤ c.start_line + m)
    ∧ (∀ k c c2, (split_by_lines content sym lng off m nk summ)[k]? = some c →
        (split_by_lines content sym lng off m nk summ)[k + 1]? = some c2 →
        c2.start_line = c.start_line + m ∧ c.end_line + 1 = c2.start_line) := by
  refine ⟨collect_chunks_line_bound lang interesting prune m sfn hm node hwf,
    ?_, ?_, ?_⟩
  · intro c hc
    rw [List.head?_eq_getElem?] at hc
    rw [split_by_lines_getElem content sym lng off m nk summ hm hov 0] at hc
    split at hc
    · rw [Option.some.injEq] at hc
      subst hc
      simp
    · simp at hc
  · intro k c hc
    rw [split_by_lines_getElem content sym lng off m nk summ hm hov k] at hc
    split at hc
    · rename_i hclt
      rw [Option.some.injEq] at hc
      subst hc
      refine ⟨rfl, ?_, ?_⟩ <;>
      · dsimp only
        omega
    · simp at hc
  · intro k c c2 hc hc2
    rw [split_by_lines_getElem content sym lng off m nk summ hm hov k] at hc
    rw [split_by_lines_getElem content sym lng off m nk summ hm hov (k + 1)]
      at hc2
    split at hc
    · rename_i hk1
      split at hc2
      · rename_i hk2
        rw [Option.some.injEq] at hc hc2
        subst hc
        subst hc2
        have harith : (k + 1) * m = k * m + m := by ring
        rw [harith] at hk2 ⊢
        refine ⟨?_, ?_⟩ <;>
        · dsimp only
          omega
      · simp at hc2
    · simp at hc

/-- Witness for C4 at a concrete split: the second window of a 3-line parent
split with `max_lines = 2` starts at `off + 1 * 2`. -/
theorem C4_witness :
    (split_by_lines "a\nb\nc" "s" "rust" 7 2 "k" none)[1]?.map
      Chunk.start_line = some (7 + 1 * 2) := by
  have hmem : (split_by_lines "a\nb\nc" "s" "rust" 7 2 "k" none)[1]? =
      some ⟨"rust", "s", "c", 9, 9, "k", none⟩ := by decide
  have h := (C4_oversize_split_geometry "rust" [] [] 2 (fun _ => none)
    (.mk "function_item" 0 0 "x" []) "a\nb\nc" "s" "rust" "k" 7 none
    (by decide)
    (NodeWF.mk _ _ _ _ _ (by decide) (by decide) (by decide) (by simp))
    (by decide)).2.2.1 1 _ hmem
  rw [hmem]
  exact congrArg some h.1

/-- C5: every window chunk produced by splitting an oversize chunk carries
the symbol, the language, and the summary passed by the call site — those of
the oversize parent it replaces (`collect_chunks` passes the parent's
computed symbol, the language tag, and the parent's summary). -/
theorem C5_windows_inherit_parent_fields (content sym lang : String)
    (off m : Nat) (nk : String) (summ : Option String) :
    ∀ c ∈ split_by_lines content sym lang off m nk summ,
      c.symbol = sym ∧ c.language = lang ∧ c.summary = summ := by
  intro c hc
  obtain ⟨h1, h2, h3, -⟩ := split_go_fields (rust_lines content) sym lang nk
    summ off m (rust_lines content).length 0 c hc
  exact ⟨h1, h2, h3⟩

/-- Witness for C5 at a concrete window of a concrete split. -/
theorem C5_witness :
    (⟨"rust", "s", "a", 5, 5, "k", some "doc"⟩ : Chunk).symbol = "s" ∧
    (⟨"rust", "s", "a", 5, 5, "k", some "doc"⟩ : Chunk).language = "rust" ∧
    (⟨"rust", "s", "a", 5, 5, "k", some "doc"⟩ : Chunk).summary = some "doc"
    := by
  have hmem : (⟨"rust", "s", "a", 5, 5, "k", some "doc"⟩ : Chunk) ∈
      split_by_lines "a\nb" "s" "rust" 5 1 "k" (some "doc") := by decide
  exact C5_windows_inherit_parent_fields "a\nb" "s" "rust" 5 1 "k"
    (some "doc") _ hmem

/-- With `reindex = false` the per-file step is exactly the hash
reconciliation followed by the body. -/
theorem index_file_step_noreindex (parse : String → String → List Chunk)
    (embed : String → Option Vec) (st : IndexState) (f : FileInput) :
    index_file_step parse embed false st f =
      match get_file_hash st.store f.rel_path with
      | some stored_hash =>
        if stored_hash = f.file_hash then
          ⟨st.store, st.indexed, st.skipped + 1⟩
        else
          index_file_body parse embed (delete_file st.store f.rel_path)
            st.indexed st.skipped f
      | none => index_file_body parse embed st.store st.indexed st.skipped f
    := rfl

/-- `Store::insert` always appends its batch (the empty-batch early return
appends nothing). -/
theorem insert_rows_eq_append (store : StoreRows) (records : List ChunkRecord) :
    insert_rows store records = store ++ records := by
  unfold insert_rows
  split
  · rename_i hemp
    rw [List.isEmpty_iff] at hemp
    rw [hemp, List.append_nil]
  · rfl

/-- Every record built for a file carries that file's path and hash, and its
id is the path, a colon, and the decimal start line. -/
theorem build_records_fields (p h : String) (cs : List Chunk)
    (vs svs : List (Option Vec)) :
    ∀ r ∈ build_records p h cs vs svs,
      r.file_path = p ∧ r.file_hash = h ∧
        r.id = p ++ ":" ++ Nat.repr r.start_line := by
  intro r hr
  unfold build_records at hr
  rw [List.mem_filterMap] at hr
  obtain ⟨a, -, ha⟩ := hr
  cases hv : a.1.2 with
  | none => rw [hv] at ha; simp at ha
  | some v =>
    rw [hv] at ha
    rw [Option.some.injEq] at ha
    subst ha
    exact ⟨rfl, rfl, rfl⟩

/-- The body of one indexer iteration only ever appends records of the
processed file to the store it is given. -/
theorem index_file_body_store (parse : String → String → List Chunk)
    (embed : String → Option Vec) (store : StoreRows) (ixd skd : Nat)
    (f : FileInput) :
    ∃ recs, (∀ r ∈ recs, r.file_path = f.rel_path ∧
        r.file_hash = f.file_hash ∧
        r.id = f.rel_path ++ ":" ++ Nat.repr r.start_line) ∧
      (index_file_body parse embed store ixd skd f).store = store ++ recs := by
  unfold index_file_body
  cases f.utf8 with
  | none => exact ⟨[], by simp, by simp⟩
  | some content =>
    dsimp only
    split
    · exact ⟨[], by simp, by simp⟩
    · refine ⟨build_records f.rel_path f.file_hash (parse f.rel_path content)
        ((parse f.rel_path content).map (fun c => embed c.content))
        ((parse f.rel_path content).map (fun c => c.summary.bind embed)),
        build_records_fields _ _ _ _ _, ?_⟩
      dsimp only
      rw [insert_rows_eq_append]

/-- C1: without the reindex flag, a file whose stored hash equals its
current hash is counted as skipped with the store untouched; a file whose
stored hash differs has exactly its own rows deleted before its new rows
(all carrying its path) are appended, and the rows of every other file path
are unchanged. -/
theorem C1_hash_reconciliation_frame (parse : String → String → List Chunk)
    (embed : String → Option Vec) (st : IndexState) (f : FileInput) :
    (get_file_hash st.store f.rel_path = some f.file_hash →
      index_file_step parse embed false st f =
        ⟨st.store, st.indexed, st.skipped + 1⟩)
    ∧ (∀ h, get_file_hash st.store f.rel_path = some h → h ≠ f.file_hash →
      ∃ recs, (∀ r ∈ recs, r.file_path = f.rel_path) ∧
        (index_file_step parse embed false st f).store =
          delete_file st.store f.rel_path ++ recs ∧
        (index_file_step parse embed false st f).store.filter
            (fun r => !(r.file_path == f.rel_path)) =
          st.store.filter (fun r => !(r.file_path == f.rel_path))) := by
  constructor
  · intro hhash
    rw [index_file_step_noreindex, hhash]
    dsimp only
    rw [if_pos rfl]
  · intro h hhash hne
    rw [index_file_step_noreindex, hhash]
    dsimp only
    rw [if_neg hne]
    obtain ⟨recs, hrecs, hstore⟩ := index_file_body_store parse embed
      (delete_file st.store f.rel_path) st.indexed st.skipped f
    refine ⟨recs, fun r hr => (hrecs r hr).1, hstore, ?_⟩
    rw [hstore]
    rw [List.filter_append]
    have hnone : recs.filter (fun r => !(r.file_path == f.rel_path)) = [] := by
      rw [List.filter_eq_nil_iff]
      intro r hr
      rw [(hrecs r hr).1]
      simp
    rw [hnone, List.append_nil]
    unfold delete_file
    rw [List.filter_filter]
    simp

/-- The body inserts nothing when the bytes do not decode or the chunk list
is empty; the file is counted as skipped. -/
theorem index_file_body_no_insert (parse : String → String → List Chunk)
    (embed : String → Option Vec) (store : StoreRows) (ixd skd : Nat)
    (f : FileInput)
    (hskip : f.utf8 = none ∨
      ∃ content, f.utf8 = some content ∧ parse f.rel_path content = []) :
    index_file_body parse embed store ixd skd f = ⟨store, ixd, skd + 1⟩ := by
  unfold index_file_body
  rcases hskip with h | ⟨content, hc, hp⟩
  · rw [h]
  · rw [hc]
    dsimp only
    rw [hp]
    rfl

/-- A skipped file (non-UTF-8 bytes or empty chunk list) advances only the
skip counter and inserts no rows: the resulting store is a sublist of the
previous one. -/
theorem index_file_step_skip (parse : String → String → List Chunk)
    (embed : String → Option Vec) (st : IndexState) (f : FileInput)
    (hskip : f.utf8 = none ∨
      ∃ content, f.utf8 = some content ∧ parse f.rel_path content = []) :
    (index_file_step parse embed false st f).indexed = st.indexed ∧
    (index_file_step parse embed false st f).skipped = st.skipped + 1 ∧
    (index_file_step parse embed false st f).store.Sublist st.store := by
  rw [index_file_step_noreindex]
  cases hgf : get_file_hash st.store f.rel_path with
  | none =>
    dsimp only
    rw [index_file_body_no_insert parse embed _ _ _ f hskip]
    exact ⟨rfl, rfl, List.Sublist.refl _⟩
  | some h =>
    dsimp only
    split
    · exact ⟨rfl, rfl, List.Sublist.refl _⟩
    · rw [index_file_body_no_insert parse embed _ _ _ f hskip]
      exact ⟨rfl, rfl, List.filter_sublist _⟩

/-- C7: a file whose bytes are not valid UTF-8 is counted as skipped, zero
rows are inserted for it, and no error surfaces (in the source the
`String::from_utf8` failure is consumed by the `match`; no error value is
constructed), so the run continues with the next file. -/
theorem C7_non_utf8_file_skipped (parse : String → String → List Chunk)
    (embed : String → Option Vec) (st : IndexState) (f : FileInput)
    (hbin : f.utf8 = none) :
    (index_file_step parse embed false st f).indexed = st.indexed ∧
    (index_file_step parse embed false st f).skipped = st.skipped + 1 ∧
    (index_file_step parse embed false st f).store.Sublist st.store :=
  index_file_step_skip parse embed st f (Or.inl hbin)

/-- Witness for C7 on a concrete binary file over an empty store. -/
theorem C7_witness :
    (index_file_step (fun _ _ => []) (fun _ => none) false ⟨[], 0, 0⟩
      ⟨"bin.dat", "h", none⟩).indexed = 0 ∧
    (index_file_step (fun _ _ => []) (fun _ => none) false ⟨[], 0, 0⟩
      ⟨"bin.dat", "h", none⟩).skipped = 0 + 1 ∧
    (index_file_step (fun _ _ => []) (fun _ => none) false ⟨[], 0, 0⟩
      ⟨"bin.dat", "h", none⟩).store.Sublist [] :=
  C7_non_utf8_file_skipped (fun _ _ => []) (fun _ => none) ⟨[], 0, 0⟩
    ⟨"bin.dat", "h", none⟩ rfl

/-- C10: the empty string has zero lines, so `split_by_lines` on it returns
no chunks; consequently the line-windowing fallback of `parse_with_grammar`
yields an empty chunk list for empty content, and the indexer counts such a
file as skipped and inserts no rows for it. -/
theorem C10_empty_content_no_chunks :
    (∀ sym lang : String, ∀ off m : Nat, ∀ nk : String,
      ∀ summ : Option String, split_by_lines "" sym lang off m nk summ = [])
    ∧ (∀ tree : Option TSNode, ∀ lang : String, ∀ interesting : List String,
      ∀ m : Nat, ∀ sfn : TSNode → Option String,
      (∀ root, tree = some root →
        collect_chunks lang interesting (prune_kinds_for lang) m sfn root
          = []) →
      parse_with_grammar tree "" lang interesting m sfn = [])
    ∧ (∀ parse : String → String → List Chunk, ∀ embed : String → Option Vec,
      ∀ st : IndexState, ∀ f : FileInput, f.utf8 = some "" →
      parse f.rel_path "" = [] →
      (index_file_step parse embed false st f).indexed = st.indexed ∧
      (index_file_step parse embed false st f).skipped = st.skipped + 1 ∧
      (index_file_step parse embed false st f).store.Sublist st.store) := by
  refine ⟨?_, ?_, ?_⟩
  · intro sym lang off m nk summ
    rfl
  · intro tree lang interesting m sfn hcoll
    cases tree with
    | none => rfl
    | some root =>
      unfold parse_with_grammar
      dsimp only
      rw [hcoll root rfl]
      rfl
  · intro parse embed st f hutf hparse
    exact index_file_step_skip parse embed st f (Or.inr ⟨"", hutf, hparse⟩)

/-- Witness for C10 on a concrete empty file. -/
theorem C10_witness :
    split_by_lines "" "s" "rust" 3 7 "k" none = [] ∧
    parse_with_grammar (some (.mk "source_file" 0 0 "" [])) "" "rust"
      RUST_KINDS 40 (fun _ => none) = [] ∧
    (index_file_step (fun _ _ => []) (fun _ => none) false ⟨[], 0, 0⟩
      ⟨"empty.rs", "h", some ""⟩).skipped = 0 + 1 := by
  refine ⟨C10_empty_content_no_chunks.1 "s" "rust" 3 7 "k" none,
    C10_empty_content_no_chunks.2.1 (some (.mk "source_file" 0 0 "" []))
      "rust" RUST_KINDS 40 (fun _ => none) ?_,
    (C10_empty_content_no_chunks.2.2 (fun _ _ => []) (fun _ => none)
      ⟨[], 0, 0⟩ ⟨"empty.rs", "h", some ""⟩ rfl rfl).2.1⟩
  intro root hroot
  rw [Option.some.injEq] at hroot
  subst hroot
  decide

/-- Witness for C1 on a concrete two-file store where the processed file's
hash changed: the rows of the other file are untouched. -/
theorem C1_witness :
    (index_file_step (fun _ _ => []) (fun _ => none) false
      ⟨[⟨"a.rs:0", "a.rs", "h1", "rust", "f", "x", 0, 0, [], none, none⟩,
        ⟨"b.rs:0", "b.rs", "hb", "rust", "g", "y", 0, 0, [], none, none⟩],
        0, 0⟩
      ⟨"a.rs", "h2", some ""⟩).store.filter
        (fun r => !(r.file_path == "a.rs")) =
      [⟨"b.rs:0", "b.rs", "hb", "rust", "g", "y", 0, 0, [], none, none⟩] := by
  have h := (C1_hash_reconciliation_frame (fun _ _ => []) (fun _ => none)
    ⟨[⟨"a.rs:0", "a.rs", "h1", "rust", "f", "x", 0, 0, [], none, none⟩,
      ⟨"b.rs:0", "b.rs", "hb", "rust", "g", "y", 0, 0, [], none, none⟩],
      0, 0⟩
    ⟨"a.rs", "h2", some ""⟩).2 "h1" (by decide) (by decide)
  obtain ⟨recs, -, -, hfilter⟩ := h
  rw [hfilter]
  decide

/-- The XML-strip fold never emits `'<'` or `'>'`. -/
theorem xml_strip_go_no_tags :
    ∀ (l : List Char) (b : Bool) (c : Char),
      c ∈ xml_strip_go b l → ¬(c = '<' ∨ c = '>') := by
  intro l
  induction l with
  | nil => intro b c hc; simp [xml_strip_go] at hc
  | cons x rest ih =>
    intro b c hc
    rw [xml_strip_go] at hc
    split at hc
    · exact ih true c hc
    · split at hc
      · exact ih false c hc
      · split at hc
        · exact ih b c hc
        · rcases List.mem_cons.mp hc with h | h
          · subst h
            rename_i h1 h2 _
            rintro (h | h) <;> exact absurd h (by assumption)
          · exact ih b c h

/-- Characters of a joined line list are newlines or characters of some
line. -/
theorem mem_join_newlines :
    ∀ (ls : List String) (c : Char), c ∈ (join_newlines ls).data →
      c = '\n' ∨ ∃ l ∈ ls, c ∈ l.data := by
  intro ls
  induction ls with
  | nil => intro c hc; simp [join_newlines] at hc
  | cons l rest ih =>
    intro c hc
    cases rest with
    | nil =>
      refine Or.inr ⟨l, List.mem_singleton_self l, ?_⟩
      simpa [join_newlines] using hc
    | cons l2 rest2 =>
      simp only [join_newlines] at hc
      rw [String.data_append, String.data_append] at hc
      rcases List.mem_append.mp hc with h | h
      · rcases List.mem_append.mp h with h2 | h2
        · exact Or.inr ⟨l, List.mem_cons_self _ _, h2⟩
        · left
          simpa using h2
      · rcases ih c h with h3 | ⟨l3, hl3, hc3⟩
        · exact Or.inl h3
        · exact Or.inr ⟨l3, List.mem_cons_of_mem _ hl3, hc3⟩

/-- Trimming only removes characters. -/
theorem mem_rust_trim (s : String) (c : Char) :
    c ∈ (rust_trim s).data → c ∈ s.data := by
  intro hc
  unfold rust_trim at hc
  simp only at hc
  rw [List.mem_reverse] at hc
  have h1 := (List.dropWhile_sublist
    (l := (s.data.dropWhile Char.isWhitespace).reverse)
    (p := Char.isWhitespace)).mem hc
  rw [List.mem_reverse] at h1
  exact (List.dropWhile_sublist (l := s.data) (p := Char.isWhitespace)).mem h1

/-- The output of `strip_xml_tags` contains neither `'<'` nor `'>'`. -/
theorem strip_xml_tags_no_tags (s : String) (c : Char)
    (hc : c ∈ (strip_xml_tags s).data) : ¬(c = '<' ∨ c = '>') := by
  unfold strip_xml_tags at hc
  rcases mem_join_newlines _ c hc with h | ⟨l, hl, hcl⟩
  · subst h
    rintro (h | h) <;> simp at h
  · have hl2 := List.mem_of_mem_filter hl
    rw [List.mem_map] at hl2
    obtain ⟨line, -, hline⟩ := hl2
    subst hline
    have := mem_rust_trim _ c hcl
    exact xml_strip_go_no_tags line.data false c this

/-- C8 counterexample: a C# `/** ... */` block doc comment (accepted by
`is_doc_comment` for C#) keeps its XML tags after `strip_comment_markers`,
because the XML strip is applied only on the line-comment branch. -/
theorem C8_counterexample :
    is_doc_comment "/** <summary>Adds</summary> */" "csharp" "comment"
      = true ∧
    strip_comment_markers "/** <summary>Adds</summary> */" "csharp" =
      "<summary>Adds</summary>" ∧
    '<' ∈ (strip_comment_markers "/** <summary>Adds</summary> */"
      "csharp").data := by
  refine ⟨by decide, by decide, by decide⟩

/-- C8 (amended): for C#, XML tag removal applies to line doc comments: when
the trimmed raw comment does not start with `/*`, the stripped summary
contains neither `'<'` nor `'>'` (tag contents are removed and emptied lines
dropped by `strip_xml_tags`); block `/** ... */` comments are not
XML-stripped. -/
theorem C8_csharp_line_comments_xml_stripped (raw : String)
    (hline : leads_with "/*".data (rust_trim raw).data = false) :
    '<' ∉ (strip_comment_markers raw "csharp").data ∧
    '>' ∉ (strip_comment_markers raw "csharp").data := by
  unfold strip_comment_markers
  rw [if_neg (by rw [hline]; exact Bool.false_ne_true)]
  dsimp only
  rw [if_pos rfl]
  constructor
  · intro hc
    exact strip_xml_tags_no_tags _ _ hc (Or.inl rfl)
  · intro hc
    exact strip_xml_tags_no_tags _ _ hc (Or.inr rfl)

/-- Witness for the amended C8 on a concrete `///` XML doc comment. -/
theorem C8_witness :
    '<' ∉ (strip_comment_markers "/// <summary>Adds two.</summary>"
      "csharp").data ∧
    '>' ∉ (strip_comment_markers "/// <summary>Adds two.</summary>"
      "csharp").data :=
  C8_csharp_line_comments_xml_stripped "/// <summary>Adds two.</summary>"
    (by decide)

theorem entry_lookup_append (i : String) :
    ∀ a b : List (SearchResult × ℚ),
      entry_lookup (a ++ b) i =
        match entry_lookup a i with
        | some e => some e
        | none => entry_lookup b i := by
  intro a b
  induction a with
  | nil => rfl
  | cons e rest ih =>
    rw [List.cons_append, entry_lookup, entry_lookup]
    split
    · rfl
    · exact ih

theorem entry_lookup_eq_none (i : String) :
    ∀ m : List (SearchResult × ℚ), (∀ e ∈ m, e.1.id ≠ i) →
      entry_lookup m i = none := by
  intro m
  induction m with
  | nil => intro _; rfl
  | cons e rest ih =>
    intro h
    rw [entry_lookup]
    rw [if_neg (h e (List.mem_cons_self _ _))]
    exact ih (fun e2 he2 => h e2 (List.mem_cons_of_mem _ he2))

theorem entry_lookup_isSome (i : String) :
    ∀ m : List (SearchResult × ℚ), (∃ e ∈ m, e.1.id = i) →
      ∃ e, entry_lookup m i = some e := by
  intro m
  induction m with
  | nil => rintro ⟨e, he, -⟩; simp at he
  | cons e rest ih =>
    rintro ⟨e2, he2, hid⟩
    rw [entry_lookup]
    by_cases h : e.1.id = i
    · exact ⟨e, by rw [if_pos h]⟩
    · rcases List.mem_cons.mp he2 with rfl | hmem
      · exact absurd hid h
      · obtain ⟨e3, he3⟩ := ih ⟨e2, hmem, hid⟩
        exact ⟨e3, by rw [if_neg h]; exact he3⟩

theorem entry_lookup_id (i : String) :
    ∀ (m : List (SearchResult × ℚ)) (e : SearchResult × ℚ),
      entry_lookup m i = some e → e.1.id = i := by
  intro m
  induction m with
  | nil => intro e he; simp [entry_lookup] at he
  | cons e2 rest ih =>
    intro e he
    rw [entry_lookup] at he
    split at he
    · rw [Option.some.injEq] at he
      subst he
      assumption
    · exact ih e he

/-- Lookup after the bump map of `and_modify`: the found entry is bumped if
its id matches, untouched otherwise. -/
theorem entry_lookup_map_bump (rid : String) (q : ℚ) (i : String) :
    ∀ acc : List (SearchResult × ℚ),
      entry_lookup
        (acc.map (fun e => if e.1.id == rid then (e.1, e.2 + q) else e)) i =
      (entry_lookup acc i).map
        (fun e => if e.1.id == rid then (e.1, e.2 + q) else e) := by
  intro acc
  induction acc with
  | nil => rfl
  | cons e rest ih =>
    rw [List.map_cons, entry_lookup, entry_lookup]
    have h1 : ((if e.1.id == rid then (e.1, e.2 + q) else e)).1 = e.1 := by
      split <;> rfl
    rw [h1]
    split
    · rfl
    · exact ih

/-- Lookup after one `entry().and_modify().or_insert()` step. -/
theorem rrf_step_lookup (acc : List (SearchResult × ℚ)) (r : SearchResult)
    (q : ℚ) (i : String) :
    entry_lookup (rrf_step acc r q) i =
      if r.id = i then
        match entry_lookup acc i with
        | some e => some (e.1, e.2 + q)
        | none => some (r, q)
      else entry_lookup acc i := by
  unfold rrf_step
  by_cases hany : acc.any (fun e => e.1.id == r.id)
  · rw [if_pos hany]
    rw [entry_lookup_map_bump]
    by_cases hri : r.id = i
    · rw [if_pos hri]
      rw [List.any_eq_true] at hany
      obtain ⟨e0, he0, hid0⟩ := hany
      rw [beq_iff_eq] at hid0
      obtain ⟨e1, he1⟩ := entry_lookup_isSome i acc ⟨e0, he0, by rw [hid0, hri]⟩
      rw [he1]
      have : e1.1.id = i := entry_lookup_id i acc e1 he1
      rw [Option.map_some']
      rw [if_pos (by rw [beq_iff_eq, this, hri])]
    · rw [if_neg hri]
      cases he1 : entry_lookup acc i with
      | none => rfl
      | some e1 =>
        have hid1 : e1.1.id = i := entry_lookup_id i acc e1 he1
        rw [Option.map_some']
        rw [if_neg (by rw [beq_iff_eq, hid1]; exact fun h => hri h.symm)]
  · rw [if_neg hany]
    rw [entry_lookup_append]
    rw [List.any_eq_true] at hany
    push_neg at hany
    by_cases hri : r.id = i
    · rw [if_pos hri]
      have hnone : entry_lookup acc i = none := by
        apply entry_lookup_eq_none
        intro e he hc
        exact hany e he (by rw [beq_iff_eq, hc, hri])
      rw [hnone]
      rw [entry_lookup, if_pos hri]
    · rw [if_neg hri]
      cases he1 : entry_lookup acc i with
      | none =>
        rw [entry_lookup, if_neg hri]
        rfl
      | some e1 => rfl

/-- Master lemma for one enumeration loop of `rrf_merge`: an id already in
the map keeps its stored record and gains the sum of this list's
contributions; a new id enters with the record of its first occurrence. -/
theorem rrf_fold_lookup (i : String) :
    ∀ (l : List SearchResult) (acc : List (SearchResult × ℚ)) (rank : Nat),
      entry_lookup (rrf_fold acc l rank) i =
        match entry_lookup acc i with
        | some e => some (e.1, e.2 + occ_contribution l rank i)
        | none =>
          match l.find? (fun r => r.id == i) with
          | some r0 => some (r0, occ_contribution l rank i)
          | none => none := by
  intro l
  induction l with
  | nil =>
    intro acc rank
    rw [rrf_fold]
    cases h : entry_lookup acc i with
    | some e => simp [occ_contribution]
    | none => rfl
  | cons r rest ih =>
    intro acc rank
    rw [rrf_fold, ih, rrf_step_lookup]
    by_cases hri : r.id = i
    · rw [if_pos hri]
      rw [List.find?_cons_of_pos _ (by rw [beq_iff_eq]; exact hri)]
      cases h : entry_lookup acc i with
      | some e =>
        dsimp only
        rw [occ_contribution, if_pos hri]
        rw [add_assoc]
      | none =>
        dsimp only
        rw [occ_contribution, if_pos hri]
    · rw [if_neg hri]
      rw [List.find?_cons_of_neg _ (by rw [beq_iff_eq]; exact hri)]
      rw [occ_contribution, if_neg hri, zero_add]

/-- `rrf_step` preserves distinctness of the stored ids. -/
theorem rrf_step_ids_nodup (acc : List (SearchResult × ℚ))
    (r : SearchResult) (q : ℚ) (hnd : (entry_ids acc).Nodup) :
    (entry_ids (rrf_step acc r q)).Nodup := by
  unfold rrf_step
  by_cases hany : acc.any (fun e => e.1.id == r.id)
  · rw [if_pos hany]
    have : entry_ids (acc.map
        (fun e => if e.1.id == r.id then (e.1, e.2 + q) else e)) =
        entry_ids acc := by
      unfold entry_ids
      rw [List.map_map]
      apply List.map_congr_left
      intro e _
      simp only [Function.comp]
      split <;> rfl
    rw [this]
    exact hnd
  · rw [if_neg hany]
    unfold entry_ids
    rw [List.map_append]
    rw [List.any_eq_true] at hany
    push_neg at hany
    apply List.Nodup.append hnd (List.nodup_singleton _)
    intro x hx hx2
    rw [List.mem_singleton] at hx2
    subst hx2
    unfold entry_ids at hx
    rw [List.mem_map] at hx
    obtain ⟨e, he, hid⟩ := hx
    exact hany e he (by rw [beq_iff_eq, hid])

/-- The map built by the enumeration loops always has distinct ids. -/
theorem rrf_fold_ids_nodup :
    ∀ (l : List SearchResult) (acc : List (SearchResult × ℚ)) (rank : Nat),
      (entry_ids acc).Nodup → (entry_ids (rrf_fold acc l rank)).Nodup := by
  intro l
  induction l with
  | nil => intro acc rank h; exact h
  | cons r rest ih =>
    intro acc rank h
    rw [rrf_fold]
    exact ih _ _ (rrf_step_ids_nodup acc r _ h)

/-- The scores map of `rrf_merge` has distinct ids. -/
theorem rrf_scores_ids_nodup (cs ss : List SearchResult) :
    (entry_ids (rrf_scores cs ss)).Nodup :=
  rrf_fold_ids_nodup ss _ 0 (rrf_fold_ids_nodup cs [] 0 List.nodup_nil)

/-- Under distinct ids, lookup by a member entry's id finds that entry. -/
theorem entry_lookup_of_mem_nodup :
    ∀ (m : List (SearchResult × ℚ)) (e : SearchResult × ℚ),
      (entry_ids m).Nodup → e ∈ m → entry_lookup m e.1.id = some e := by
  intro m
  induction m with
  | nil => intro e _ he; simp at he
  | cons e2 rest ih =>
    intro e hnd he
    rw [entry_lookup]
    rcases List.mem_cons.mp he with rfl | hmem
    · rw [if_pos rfl]
    · unfold entry_ids at hnd
      rw [List.map_cons, List.nodup_cons] at hnd
      rw [if_neg ?_]
      · exact ih e hnd.2 hmem
      · intro hc
        apply hnd.1
        rw [hc]
        exact List.mem_map_of_mem _ hmem

/-- A list with no occurrence of an id contributes zero to it. -/
theorem occ_contribution_of_absent (i : String) :
    ∀ (l : List SearchResult) (rank : Nat), (∀ r ∈ l, r.id ≠ i) →
      occ_contribution l rank i = 0 := by
  intro l
  induction l with
  | nil => intro rank _; rfl
  | cons r rest ih =>
    intro rank h
    rw [occ_contribution]
    rw [if_neg (h r (List.mem_cons_self _ _)), zero_add]
    exact ih _ (fun r2 hr2 => h r2 (List.mem_cons_of_mem _ hr2))

/-- With distinct ids, the summed contribution from enumeration base 0 is
exactly the spec's rank formula. -/
theorem occ_contribution_eq_list_contribution (i : String) :
    ∀ (l : List SearchResult), (l.map (fun r => r.id)).Nodup →
      ∀ rank : Nat,
        occ_contribution l rank i =
          match l.findIdx? (fun r => r.id == i) with
          | some idx => rrf_val (rank + idx)
          | none => 0 := by
  intro l
  induction l with
  | nil => intro _ rank; rfl
  | cons r rest ih =>
    intro hnd rank
    rw [List.map_cons, List.nodup_cons] at hnd
    rw [occ_contribution, List.findIdx?_cons]
    by_cases hri : r.id = i
    · rw [if_pos hri]
      rw [if_pos (by rw [beq_iff_eq]; exact hri)]
      have hrest : ∀ r2 ∈ rest, r2.id ≠ i := by
        intro r2 hr2 hc
        apply hnd.1
        rw [hri, ← hc]
        exact List.mem_map_of_mem _ hr2
      rw [occ_contribution_of_absent i rest _ hrest]
      dsimp only
      rw [add_zero, Nat.add_zero]
    · rw [if_neg hri]
      rw [if_neg (by rw [beq_iff_eq]; exact hri), zero_add]
      rw [ih hnd.2 (rank + 1)]
      rw [List.findIdx?_succ]
      cases h : rest.findIdx? (fun r => r.id == i) with
      | none => rfl
      | some idx =>
        rw [Option.map_some']
        dsimp only
        have harith : rank + 1 + idx = rank + (idx + 1) := by omega
        rw [harith]

/-- A list with no occurrence of an id has zero spec-side contribution. -/
theorem list_contribution_of_absent (i : String) (l : List SearchResult)
    (h : ∀ r ∈ l, r.id ≠ i) : list_contribution l i = 0 := by
  unfold list_contribution
  have hnone : l.findIdx? (fun r => r.id == i) = none := by
    rw [List.findIdx?_eq_none_iff]
    intro r hr
    rw [beq_eq_false_iff_ne]
    exact h r hr
  rw [hnone]

/-- From enumeration base 0, the summed contribution is the spec's rank
formula. -/
theorem occ_contribution_zero_base (i : String) (l : List SearchResult)
    (hnd : (l.map (fun r => r.id)).Nodup) :
    occ_contribution l 0 i = list_contribution l i := by
  rw [occ_contribution_eq_list_contribution i l hnd 0]
  unfold list_contribution
  cases h : l.findIdx? (fun r => r.id == i) with
  | none => rfl
  | some idx =>
    dsimp only
    rw [Nat.zero_add]

/-- Entries of the scores map carry the fused score of their id, and when
the id occurs in the content list the record kept is the content list's
first occurrence. -/
theorem rrf_scores_lookup_value (cs ss : List SearchResult) (i : String)
    (hcs : (cs.map (fun r => r.id)).Nodup)
    (hss : (ss.map (fun r => r.id)).Nodup) :
    ∀ e, entry_lookup (rrf_scores cs ss) i = some e →
      e.2 = fused_score cs ss i ∧
      (∀ r1, cs.find? (fun r => r.id == i) = some r1 → e.1 = r1) := by
  intro e he
  unfold rrf_scores at he
  rw [rrf_fold_lookup, rrf_fold_lookup] at he
  have hocc_cs := occ_contribution_zero_base i cs hcs
  have hocc_ss := occ_contribution_zero_base i ss hss
  cases hcf : cs.find? (fun r => r.id == i) with
  | some r1 =>
    rw [hcf] at he
    dsimp only [entry_lookup] at he
    rw [Option.some.injEq] at he
    subst he
    refine ⟨?_, ?_⟩
    · dsimp only
      rw [hocc_cs, hocc_ss]
      rfl
    · intro r1b hr1b
      rw [Option.some.injEq] at hr1b
      subst hr1b
      rfl
  | none =>
    rw [hcf] at he
    dsimp only [entry_lookup] at he
    have habs : ∀ r ∈ cs, r.id ≠ i := by
      intro r hr hc
      have := List.find?_eq_none.mp hcf r hr
      rw [beq_iff_eq] at this
      exact this hc
    cases hsf : ss.find? (fun r => r.id == i) with
    | some s0 =>
      rw [hsf] at he
      rw [Option.some.injEq] at he
      subst he
      refine ⟨?_, ?_⟩
      · dsimp only
        unfold fused_score
        rw [list_contribution_of_absent i cs habs, zero_add, ← hocc_ss]
      · intro r1 hr1
        simp at hr1
    | none =>
      rw [hsf] at he
      simp at he

/-- Stable insertion permutes. -/
theorem sort_desc_insert_perm (x : SearchResult × ℚ) :
    ∀ l, (sort_desc_insert x l).Perm (x :: l) := by
  intro l
  induction l with
  | nil => exact List.Perm.refl _
  | cons y ys ih =>
    rw [sort_desc_insert]
    split
    · exact List.Perm.refl _
    · exact (ih.cons y).trans (List.Perm.swap x y ys)

/-- The stable sort permutes its input. -/
theorem sort_desc_perm : ∀ l : List (SearchResult × ℚ),
    (sort_desc l).Perm l := by
  intro l
  induction l with
  | nil => exact List.Perm.refl _
  | cons x xs ih =>
    rw [sort_desc]
    exact (sort_desc_insert_perm x _).trans (ih.cons x)

/-- Stable insertion preserves descending sortedness. -/
theorem sort_desc_insert_pairwise (x : SearchResult × ℚ) :
    ∀ l : List (SearchResult × ℚ),
      l.Pairwise (fun a b => b.2 ≤ a.2) →
      (sort_desc_insert x l).Pairwise (fun a b => b.2 ≤ a.2) := by
  intro l
  induction l with
  | nil => intro _; simp [sort_desc_insert]
  | cons y ys ih =>
    intro hl
    rw [List.pairwise_cons] at hl
    rw [sort_desc_insert]
    split
    · rename_i hyx
      rw [List.pairwise_cons]
      refine ⟨?_, List.pairwise_cons.mpr hl⟩
      intro z hz
      rcases List.mem_cons.mp hz with rfl | hz2
      · exact hyx
      · exact le_trans (hl.1 z hz2) hyx
    · rename_i hyx
      rw [List.pairwise_cons]
      refine ⟨?_, ih hl.2⟩
      intro z hz
      have hz2 := (sort_desc_insert_perm x ys).mem_iff.mp hz
      rcases List.mem_cons.mp hz2 with rfl | hz3
      · exact le_of_lt (lt_of_not_ge hyx)
      · exact hl.1 z hz3

/-- The stable sort yields a descending score sequence. -/
theorem sort_desc_pairwise : ∀ l : List (SearchResult × ℚ),
    (sort_desc l).Pairwise (fun a b => b.2 ≤ a.2) := by
  intro l
  induction l with
  | nil => simp [sort_desc]
  | cons x xs ih =>
    rw [sort_desc]
    exact sort_desc_insert_pairwise x _ ih

/-- When an id occurs in the content list, the scores-map record for it is
the content list's first occurrence (no distinctness needed: `or_insert`
keeps the first record and `and_modify` never replaces it). -/
theorem rrf_scores_lookup_record (cs ss : List SearchResult) (i : String)
    (r1 : SearchResult) (hfind : cs.find? (fun r => r.id == i) = some r1) :
    ∀ e, entry_lookup (rrf_scores cs ss) i = some e → e.1 = r1 := by
  intro e he
  unfold rrf_scores at he
  rw [rrf_fold_lookup, rrf_fold_lookup, hfind] at he
  dsimp only [entry_lookup] at he
  rw [Option.some.injEq] at he
  subst he
  rfl

/-- C2: in fused search, ranks start at 1 per list, a row's contribution
from a list is `1/(K + rank)`, its fused score is the sum over the two
lists with a missing list contributing zero; a row at rank 1 in both lists
gets `2/(K+1)`, a row at rank `r` in one list only gets `1/(K+r)`; the
output is truncated to `limit` and every returned row's score field equals
its fused score.  Quantified over every admissible `HashMap::into_values`
order; scores are exact rationals standing in for `f32`. -/
theorem C2_rrf_merge_fused_scores (cs ss : List SearchResult) (limit : Nat)
    (iterate : List (SearchResult × ℚ) → List (SearchResult × ℚ))
    (hiter : (iterate (rrf_scores cs ss)).Perm (rrf_scores cs ss))
    (hcs : (cs.map (fun r => r.id)).Nodup)
    (hss : (ss.map (fun r => r.id)).Nodup) :
    (∀ row ∈ rrf_merge iterate cs ss limit,
        row.score = fused_score cs ss row.id)
    ∧ (rrf_merge iterate cs ss limit).length =
        min limit (rrf_scores cs ss).length
    ∧ (∀ a b, cs.head? = some a → ss.head? = some b → a.id = b.id →
        fused_score cs ss a.id = 2 / (RRF_K + 1))
    ∧ (∀ (idx : Nat) (i : String),
        cs.findIdx? (fun r => r.id == i) = some idx →
        (∀ r ∈ ss, r.id ≠ i) →
        fused_score cs ss i = 1 / (RRF_K + (idx + 1 : ℚ)))
    ∧ (∀ (idx : Nat) (i : String),
        ss.findIdx? (fun r => r.id == i) = some idx →
        (∀ r ∈ cs, r.id ≠ i) →
        fused_score cs ss i = 1 / (RRF_K + (idx + 1 : ℚ))) := by
  refine ⟨?_, ?_, ?_, ?_, ?_⟩
  · intro row hrow
    unfold rrf_merge at hrow
    rw [List.mem_map] at hrow
    obtain ⟨e, he, hrow⟩ := hrow
    subst hrow
    have he2 : e ∈ sort_desc (iterate (rrf_scores cs ss)) :=
      (List.take_sublist _ _).mem he
    have he3 : e ∈ rrf_scores cs ss :=
      hiter.mem_iff.mp ((sort_desc_perm _).mem_iff.mp he2)
    have hlook := entry_lookup_of_mem_nodup _ e (rrf_scores_ids_nodup cs ss)
      he3
    exact (rrf_scores_lookup_value cs ss e.1.id hcs hss e hlook).1
  · unfold rrf_merge
    rw [List.length_map, List.length_take]
    rw [(sort_desc_perm _).length_eq, hiter.length_eq]
  · intro a b ha hb hab
    cases cs with
    | nil => simp at ha
    | cons a0 cst =>
      cases ss with
      | nil => simp at hb
      | cons b0 sst =>
        rw [List.head?_cons, Option.some.injEq] at ha hb
        subst ha
        subst hb
        unfold fused_score list_contribution
        rw [List.findIdx?_cons, if_pos (by rw [beq_iff_eq])]
        rw [List.findIdx?_cons, if_pos (by rw [beq_iff_eq]; exact hab.symm)]
        dsimp only
        unfold rrf_val RRF_K
        norm_num
  · intro idx i hfind habs
    unfold fused_score
    rw [list_contribution_of_absent i ss habs, add_zero]
    unfold list_contribution
    rw [hfind]
    rfl
  · intro idx i hfind habs
    unfold fused_score
    rw [list_contribution_of_absent i cs habs, zero_add]
    unfold list_contribution
    rw [hfind]
    rfl

/-- C9: when the same id occurs in both input lists, the merged row for that
id carries the non-score fields of the occurrence inserted first into the
score map — the content-list occurrence, since the content list is folded in
before the summary list; only the score field is replaced. -/
theorem C9_duplicate_id_keeps_content_record (cs ss : List SearchResult)
    (limit : Nat)
    (iterate : List (SearchResult × ℚ) → List (SearchResult × ℚ))
    (hiter : (iterate (rrf_scores cs ss)).Perm (rrf_scores cs ss))
    (i : String) (r1 : SearchResult)
    (hfind : cs.find? (fun r => r.id == i) = some r1)
    (_hboth : ∃ r ∈ ss, r.id = i) :
    ∀ row ∈ rrf_merge iterate cs ss limit, row.id = i →
      row = { r1 with score := row.score } := by
  intro row hrow hid
  unfold rrf_merge at hrow
  rw [List.mem_map] at hrow
  obtain ⟨e, he, hrow⟩ := hrow
  subst hrow
  have he3 : e ∈ rrf_scores cs ss :=
    hiter.mem_iff.mp ((sort_desc_perm _).mem_iff.mp
      ((List.take_sublist _ _).mem he))
  have hlook := entry_lookup_of_mem_nodup _ e (rrf_scores_ids_nodup cs ss) he3
  have hlook2 : entry_lookup (rrf_scores cs ss) i = some e := by
    rw [← hid]
    exact hlook
  have hrec := rrf_scores_lookup_record cs ss i r1 hfind e hlook2
  rw [← hrec]

/-- Witness for C2: with the identity iteration order and two one-element
lists sharing the id `"a"`, the fused score at rank 1 in both lists is
`2/(K+1)` and the output length is `min limit 1`. -/
theorem C2_witness :
    fused_score [sr_a] [sr_a2] sr_a.id = 2 / (RRF_K + 1) ∧
    (rrf_merge id [sr_a] [sr_a2] 5).length =
      min 5 (rrf_scores [sr_a] [sr_a2]).length := by
  have h := C2_rrf_merge_fused_scores [sr_a] [sr_a2] 5 id
    (List.Perm.refl _) (by decide) (by decide)
  exact ⟨h.2.2.1 sr_a sr_a2 rfl rfl rfl, h.2.1⟩

/-- Witness for C9: with both lists holding the id `"a"`, the merged row
keeps the content-list record's file path. -/
theorem C9_witness :
    (rrf_merge id [sr_a] [sr_a2] 5).head?.map SearchResult.file_path =
      some sr_a.file_path := by
  have hmerge : rrf_merge id [sr_a] [sr_a2] 5 =
      [{ sr_a with score := rrf_val 0 + rrf_val 0 }] := rfl
  have hmem : ({ sr_a with score := rrf_val 0 + rrf_val 0 } : SearchResult) ∈
      rrf_merge id [sr_a] [sr_a2] 5 := by
    rw [hmerge]
    exact List.mem_singleton_self _
  have h := C9_duplicate_id_keeps_content_record [sr_a] [sr_a2] 5 id
    (List.Perm.refl _) "a" sr_a rfl ⟨sr_a2, List.mem_singleton_self _, rfl⟩
    _ hmem rfl
  calc (rrf_merge id [sr_a] [sr_a2] 5).head?.map SearchResult.file_path
      = some (({ sr_a with score := rrf_val 0 + rrf_val 0 } :
          SearchResult).file_path) := by
        rw [hmerge, List.head?_cons, Option.map_some']
    _ = some (SearchResult.file_path { sr_a with score :=
          ({ sr_a with score := rrf_val 0 + rrf_val 0 } :
            SearchResult).score }) := by rw [h]
    _ = some sr_a.file_path := rfl

/-- C3 counterexample: the pre-sort order is `HashMap::into_values`, not
insertion order.  With two rows of equal fused score `1/(K+1)` (insertion
order `"a"` then `"b"`) and the admissible iteration order `List.reverse`,
the stable sort keeps the reversed order and the output lists `"b"` before
`"a"` — ties are not returned in insertion order. -/
theorem C3_counterexample :
    (List.reverse (rrf_scores [sr_a] [sr_b])).Perm (rrf_scores [sr_a] [sr_b])
    ∧ (rrf_scores [sr_a] [sr_b]).map (fun e => e.1.id) = ["a", "b"]
    ∧ (rrf_scores [sr_a] [sr_b]).map (fun e => e.2) = [rrf_val 0, rrf_val 0]
    ∧ (rrf_merge List.reverse [sr_a] [sr_b] 10).map (fun r => r.id) =
        ["b", "a"] := by
  refine ⟨List.reverse_perm _, rfl, rfl, ?_⟩
  unfold rrf_merge
  have h1 : List.reverse (rrf_scores [sr_a] [sr_b]) =
      [(sr_b, rrf_val 0), (sr_a, rrf_val 0)] := rfl
  rw [h1]
  have h2 : sort_desc [(sr_b, rrf_val 0), (sr_a, rrf_val 0)] =
      [(sr_b, rrf_val 0), (sr_a, rrf_val 0)] := by
    simp only [sort_desc, sort_desc_insert]
    rw [if_pos le_rfl]
  dsimp only
  rw [h2]
  rfl

/-- C3 (amended): the output of `rrf_merge` is sorted descending by fused
score for every pair of input lists, every limit, and every admissible
`HashMap::into_values` order; rows with equal fused scores appear in the
map's iteration order (which is unspecified), not necessarily insertion
order. -/
theorem C3_output_sorted_descending (cs ss : List SearchResult)
    (limit : Nat)
    (iterate : List (SearchResult × ℚ) → List (SearchResult × ℚ))
    (_hiter : (iterate (rrf_scores cs ss)).Perm (rrf_scores cs ss)) :
    (rrf_merge iterate cs ss limit).Pairwise
      (fun r1 r2 => r2.score ≤ r1.score) := by
  unfold rrf_merge
  apply List.Pairwise.map
  · intro a b hab
    exact hab
  · exact List.Pairwise.sublist (List.take_sublist _ _) (sort_desc_pairwise _)

/-- Witness for the amended C3 at a concrete reversed iteration order. -/
theorem C3_witness :
    (rrf_merge List.reverse [sr_a] [sr_b] 10).Pairwise
      (fun r1 r2 => r2.score ≤ r1.score) :=
  C3_output_sorted_descending [sr_a] [sr_b] 10 List.reverse
    (List.reverse_perm _)

theorem toDigitsCore_shift :
    ∀ (fuel n : Nat) (ds : List Char), n < fuel →
      Nat.toDigitsCore 10 fuel n ds = Nat.toDigitsCore 10 fuel n [] ++ ds := by
  intro fuel
  induction fuel with
  | zero => intro n ds h; omega
  | succ f ih =>
    intro n ds h
    rw [Nat.toDigitsCore, Nat.toDigitsCore]
    by_cases h10 : n / 10 = 0
    · rw [if_pos h10, if_pos h10]
      rfl
    · rw [if_neg h10, if_neg h10]
      have hn10 : n / 10 < f := by
        have h1 : 0 < n := by
          by_contra hc
          push_neg at hc
          interval_cases n
          simp at h10
        have := Nat.div_lt_self h1 (by omega : 1 < 10)
        omega
      rw [ih (n / 10) _ hn10, ih (n / 10) [(n % 10).digitChar] hn10]
      simp

theorem toDigitsCore_fuel :
    ∀ (f g n : Nat), n < f → n < g →
      Nat.toDigitsCore 10 f n [] = Nat.toDigitsCore 10 g n [] := by
  intro f
  induction f with
  | zero => intro g n h; omega
  | succ f ih =>
    intro g n hf hg
    cases g with
    | zero => omega
    | succ g =>
      rw [Nat.toDigitsCore, Nat.toDigitsCore]
      by_cases h10 : n / 10 = 0
      · rw [if_pos h10, if_pos h10]
      · rw [if_neg h10, if_neg h10]
        have hn10 : n / 10 < n := by
          apply Nat.div_lt_self _ (by omega : 1 < 10)
          by_contra hc
          push_neg at hc
          interval_cases n
          simp at h10
        rw [toDigitsCore_shift f (n / 10) _ (by omega),
          toDigitsCore_shift g (n / 10) _ (by omega)]
        rw [ih g (n / 10) (by omega) (by omega)]

/-- Unfolding of `Nat.toDigits` base 10: most significant digits first. -/
theorem toDigits_eq (n : Nat) :
    Nat.toDigits 10 n =
      if n < 10 then [Nat.digitChar n]
      else Nat.toDigits 10 (n / 10) ++ [Nat.digitChar (n % 10)] := by
  unfold Nat.toDigits
  rw [Nat.toDigitsCore]
  by_cases h : n < 10
  · rw [if_pos h]
    rw [if_pos (Nat.div_eq_of_lt h)]
    rw [Nat.mod_eq_of_lt h]
  · rw [if_neg h]
    have h10 : ¬ n / 10 = 0 := by
      intro hc
      rw [Nat.div_eq_zero_iff (by omega)] at hc
      exact h hc
    rw [if_neg h10]
    rw [toDigitsCore_shift n (n / 10) _
      (Nat.div_lt_self (by omega) (by omega))]
    rw [toDigitsCore_fuel n (n / 10 + 1) (n / 10)
      (Nat.div_lt_self (by omega) (by omega)) (Nat.lt_succ_self _)]

theorem digit_val_digitChar (k : Nat) (hk : k < 10) :
    digit_val (Nat.digitChar k) = k := by
  interval_cases k <;> rfl

theorem digitChar_ne_colon (k : Nat) : Nat.digitChar k ≠ ':' := by
  by_cases h : k < 16
  · interval_cases k <;> decide
  · have hstar : Nat.digitChar k = '*' := by
      unfold Nat.digitChar
      repeat rw [if_neg (by omega)]
    rw [hstar]
    decide

/-- Decimal digits round-trip through their value. -/
theorem digits_val_toDigits : ∀ n : Nat, digits_val (Nat.toDigits 10 n) = n := by
  intro n
  induction n using Nat.strong_induction_on with
  | _ n ih =>
    rw [toDigits_eq]
    by_cases h : n < 10
    · rw [if_pos h]
      unfold digits_val
      rw [List.foldl_cons, List.foldl_nil]
      rw [Nat.mul_zero, Nat.zero_add]
      exact digit_val_digitChar n h
    · rw [if_neg h]
      unfold digits_val
      rw [List.foldl_append, List.foldl_cons, List.foldl_nil]
      have ihd := ih (n / 10) (Nat.div_lt_self (by omega) (by omega))
      unfold digits_val at ihd
      rw [ihd]
      rw [digit_val_digitChar (n % 10) (Nat.mod_lt _ (by omega))]
      omega

/-- `Nat.repr` is injective. -/
theorem nat_repr_injective (m n : Nat) (h : Nat.repr m = Nat.repr n) :
    m = n := by
  unfold Nat.repr at h
  have hdata : Nat.toDigits 10 m = Nat.toDigits 10 n := by
    have := congrArg String.data h
    simpa [List.asString] using this
  calc m = digits_val (Nat.toDigits 10 m) := (digits_val_toDigits m).symm
    _ = digits_val (Nat.toDigits 10 n) := by rw [hdata]
    _ = n := digits_val_toDigits n

/-- Decimal digit strings never contain a colon. -/
theorem toDigits_ne_colon : ∀ (n : Nat), ∀ c ∈ Nat.toDigits 10 n, c ≠ ':' := by
  intro n
  induction n using Nat.strong_induction_on with
  | _ n ih =>
    intro c hc
    rw [toDigits_eq] at hc
    by_cases h : n < 10
    · rw [if_pos h] at hc
      rw [List.mem_singleton] at hc
      subst hc
      exact digitChar_ne_colon n
    · rw [if_neg h] at hc
      rcases List.mem_append.mp hc with h2 | h2
      · exact ih (n / 10) (Nat.div_lt_self (by omega) (by omega)) c h2
      · rw [List.mem_singleton] at h2
        subst h2
        exact digitChar_ne_colon (n % 10)

/-- Splitting at a colon is unambiguous when the pieces before it are
colon-free. -/
theorem append_colon_injective :
    ∀ (x1 x2 y1 y2 : List Char), (∀ c ∈ x1, c ≠ ':') → (∀ c ∈ x2, c ≠ ':') →
      x1 ++ ':' :: y1 = x2 ++ ':' :: y2 → x1 = x2 ∧ y1 = y2 := by
  intro x1
  induction x1 with
  | nil =>
    intro x2 y1 y2 _ hx2 h
    cases x2 with
    | nil =>
      rw [List.nil_append, List.nil_append, List.cons.injEq] at h
      exact ⟨rfl, h.2⟩
    | cons c2 t2 =>
      rw [List.nil_append, List.cons_append, List.cons.injEq] at h
      exact absurd h.1.symm (hx2 c2 (List.mem_cons_self _ _))
  | cons c1 t1 ih =>
    intro x2 y1 y2 hx1 hx2 h
    cases x2 with
    | nil =>
      rw [List.nil_append, List.cons_append, List.cons.injEq] at h
      exact absurd h.1 (hx1 c1 (List.mem_cons_self _ _))
    | cons c2 t2 =>
      rw [List.cons_append, List.cons_append, List.cons.injEq] at h
      obtain ⟨hc, ht⟩ := h
      obtain ⟨h1, h2⟩ := ih t2 y1 y2
        (fun c hc2 => hx1 c (List.mem_cons_of_mem _ hc2))
        (fun c hc2 => hx2 c (List.mem_cons_of_mem _ hc2)) ht
      exact ⟨by rw [hc, h1], h2⟩

/-- The characters of `Nat.repr` are decimal digits, never a colon. -/
theorem repr_data_ne_colon (n : Nat) : ∀ c ∈ (Nat.repr n).data, c ≠ ':' := by
  intro c hc
  have hd : (Nat.repr n).data = Nat.toDigits 10 n := rfl
  rw [hd] at hc
  exact toDigits_ne_colon n c hc

/-- The id encoding `path ++ ":" ++ decimal(start_line)` is injective: the
digits after the last colon are colon-free, so the last colon locates the
boundary. -/
theorem id_encode_injective (p1 p2 : String) (n1 n2 : Nat)
    (h : p1 ++ ":" ++ Nat.repr n1 = p2 ++ ":" ++ Nat.repr n2) :
    p1 = p2 ∧ n1 = n2 := by
  have hdata := congrArg String.data h
  rw [String.data_append, String.data_append, String.data_append,
    String.data_append] at hdata
  have hcolon : (":" : String).data = [':'] := rfl
  rw [hcolon] at hdata
  have hrev := congrArg List.reverse hdata
  rw [List.reverse_append, List.reverse_append, List.reverse_append,
    List.reverse_append] at hrev
  have hshape : ∀ (p : String) (n : Nat),
      (Nat.repr n).data.reverse ++ ([':'].reverse ++ p.data.reverse) =
        (Nat.repr n).data.reverse ++ ':' :: p.data.reverse := by
    intro p n
    rfl
  rw [hshape p1 n1, hshape p2 n2] at hrev
  obtain ⟨hx, hy⟩ := append_colon_injective (Nat.repr n1).data.reverse
    (Nat.repr n2).data.reverse p1.data.reverse p2.data.reverse
    (fun c hc => repr_data_ne_colon n1 c (List.mem_reverse.mp hc))
    (fun c hc => repr_data_ne_colon n2 c (List.mem_reverse.mp hc)) hrev
  constructor
  · exact String.ext (List.reverse_injective hy)
  · have hdig : Nat.toDigits 10 n1 = Nat.toDigits 10 n2 :=
      List.reverse_injective hx
    calc n1 = digits_val (Nat.toDigits 10 n1) := (digits_val_toDigits n1).symm
      _ = digits_val (Nat.toDigits 10 n2) := by rw [hdig]
      _ = n2 := digits_val_toDigits n2

/-- Deleting rows preserves the table invariant. -/
theorem storeOK_filter (store : StoreRows) (q : ChunkRecord → Bool)
    (h : StoreOK store) : StoreOK (store.filter q) := by
  constructor
  · intro r hr
    exact h.1 r (List.mem_of_mem_filter hr)
  · exact List.Nodup.sublist ((List.filter_sublist store).map _) h.2

/-- The records built for one file have start lines drawn in order from its
chunks. -/
theorem build_records_start_lines_sublist (p h : String) :
    ∀ (cs : List Chunk) (vs svs : List (Option Vec)),
      ((build_records p h cs vs svs).map (fun r => r.start_line)).Sublist
        (cs.map (fun c => c.start_line)) := by
  intro cs
  induction cs with
  | nil => intro vs svs; simp [build_records]
  | cons c cst ih =>
    intro vs svs
    cases vs with
    | nil => simp [build_records]
    | cons v vst =>
      cases svs with
      | nil => simp [build_records]
      | cons sv svt =>
        unfold build_records
        rw [List.zip_cons_cons, List.zip_cons_cons, List.filterMap_cons]
        cases v with
        | none =>
          dsimp only
          rw [List.map_cons]
          exact (ih vst svt).cons _
        | some vec =>
          dsimp only
          rw [List.map_cons, List.map_cons]
          exact (ih vst svt).cons₂ _

/-- When a file's chunk start lines are pairwise distinct, so are the ids of
its records. -/
theorem build_records_ids_nodup (p h : String) (cs : List Chunk)
    (vs svs : List (Option Vec))
    (hnd : (cs.map (fun c => c.start_line)).Nodup) :
    ((build_records p h cs vs svs).map (fun r => r.id)).Nodup := by
  have hnd2 : ((build_records p h cs vs svs).map
      (fun r => r.start_line)).Nodup :=
    List.Nodup.sublist (build_records_start_lines_sublist p h cs vs svs) hnd
  have hmap : (build_records p h cs vs svs).map (fun r => r.id) =
      ((build_records p h cs vs svs).map (fun r => r.start_line)).map
        (fun n => p ++ ":" ++ Nat.repr n) := by
    rw [List.map_map]
    apply List.map_congr_left
    intro r hr
    exact (build_records_fields p h cs vs svs r hr).2.2
  rw [hmap]
  exact hnd2.map (fun a b hab => (id_encode_injective p p a b hab).2)

/-- Appending well-formed records of a path absent from a well-formed base
preserves the table invariant. -/
theorem storeOK_append_new (base : StoreRows) (recs : List ChunkRecord)
    (p : String) (hbase : StoreOK base) (hbp : ∀ r ∈ base, r.file_path ≠ p)
    (hrecs : ∀ r ∈ recs, r.file_path = p ∧
      r.id = p ++ ":" ++ Nat.repr r.start_line)
    (hrnd : (recs.map (fun r => r.id)).Nodup) : StoreOK (base ++ recs) := by
  constructor
  · intro r hr
    rcases List.mem_append.mp hr with h | h
    · exact hbase.1 r h
    · rw [(hrecs r h).2, (hrecs r h).1]
  · rw [List.map_append]
    apply List.Nodup.append hbase.2 hrnd
    intro a ha ha2
    rw [List.mem_map] at ha ha2
    obtain ⟨r1, hr1, hid1⟩ := ha
    obtain ⟨r2, hr2, hid2⟩ := ha2
    have heq : r1.file_path ++ ":" ++ Nat.repr r1.start_line =
        p ++ ":" ++ Nat.repr r2.start_line := by
      rw [← hbase.1 r1 hr1, ← (hrecs r2 hr2).2, hid1, hid2]
    exact hbp r1 hr1 (id_encode_injective _ _ _ _ heq).1

/-- A missing stored hash means the table holds no row for that path. -/
theorem get_file_hash_none (store : StoreRows) (p : String)
    (h : get_file_hash store p = none) : ∀ r ∈ store, r.file_path ≠ p := by
  intro r hr
  unfold get_file_hash at h
  rw [Option.map_eq_none'] at h
  have := List.find?_eq_none.mp h r hr
  rw [beq_iff_eq] at this
  exact this

/-- The indexer body preserves well-formed ids: it appends records of the
processed file whose ids are the path-colon-line encoding, pairwise distinct
when the file's chunk start lines are. -/
theorem index_file_body_store_ok (parse : String → String → List Chunk)
    (embed : String → Option Vec) (store : StoreRows) (ixd skd : Nat)
    (f : FileInput)
    (hparse : ∀ pth c, ((parse pth c).map (fun ch => ch.start_line)).Nodup) :
    ∃ recs, (∀ r ∈ recs, r.file_path = f.rel_path ∧
        r.id = f.rel_path ++ ":" ++ Nat.repr r.start_line) ∧
      (recs.map (fun r => r.id)).Nodup ∧
      (index_file_body parse embed store ixd skd f).store = store ++ recs := by
  unfold index_file_body
  cases f.utf8 with
  | none => exact ⟨[], by simp, List.nodup_nil, by simp⟩
  | some content =>
    dsimp only
    split
    · exact ⟨[], by simp, List.nodup_nil, by simp⟩
    · refine ⟨build_records f.rel_path f.file_hash (parse f.rel_path content)
        ((parse f.rel_path content).map (fun c => embed c.content))
        ((parse f.rel_path content).map (fun c => c.summary.bind embed)),
        ?_, ?_, ?_⟩
      · intro r hr
        have hf := build_records_fields f.rel_path f.file_hash _ _ _ r hr
        exact ⟨hf.1, hf.2.2⟩
      · exact build_records_ids_nodup _ _ _ _ _ (hparse f.rel_path content)
      · dsimp only
        rw [insert_rows_eq_append]

/-- One indexer iteration preserves the table invariant (for a reindex run
the file must not already be present, which holds because a reindex run
starts from the dropped table and the walker lists each path once); any row
of the new table is an old row or carries the processed file's path. -/
theorem index_file_step_storeOK (parse : String → String → List Chunk)
    (embed : String → Option Vec) (reindex : Bool) (st : IndexState)
    (f : FileInput) (hok : StoreOK st.store)
    (hparse : ∀ pth c, ((parse pth c).map (fun ch => ch.start_line)).Nodup)
    (hre : reindex = true → ∀ r ∈ st.store, r.file_path ≠ f.rel_path) :
    StoreOK (index_file_step parse embed reindex st f).store ∧
    ∀ r ∈ (index_file_step parse embed reindex st f).store,
      r ∈ st.store ∨ r.file_path = f.rel_path := by
  cases reindex with
  | true =>
    have hstep : index_file_step parse embed true st f =
        index_file_body parse embed st.store st.indexed st.skipped f := rfl
    obtain ⟨recs, hrecs, hrnd, hstore⟩ := index_file_body_store_ok parse embed
      st.store st.indexed st.skipped f hparse
    rw [hstep, hstore]
    refine ⟨storeOK_append_new _ _ _ hok (hre rfl) hrecs hrnd, ?_⟩
    intro r hr
    rcases List.mem_append.mp hr with h | h
    · exact Or.inl h
    · exact Or.inr (hrecs r h).1
  | false =>
    rw [index_file_step_noreindex]
    cases hgf : get_file_hash st.store f.rel_path with
    | some stored =>
      dsimp only
      by_cases he : stored = f.file_hash
      · rw [if_pos he]
        exact ⟨hok, fun r hr => Or.inl hr⟩
      · rw [if_neg he]
        obtain ⟨recs, hrecs, hrnd, hstore⟩ := index_file_body_store_ok parse
          embed (delete_file st.store f.rel_path) st.indexed st.skipped f
          hparse
        rw [hstore]
        refine ⟨storeOK_append_new _ _ _ (storeOK_filter _ _ hok) ?_ hrecs
          hrnd, ?_⟩
        · intro r hr
          have := (List.mem_filter.mp hr).2
          simpa using this
        · intro r hr
          rcases List.mem_append.mp hr with h | h
          · exact Or.inl (List.mem_of_mem_filter h)
          · exact Or.inr (hrecs r h).1
    | none =>
      dsimp only
      obtain ⟨recs, hrecs, hrnd, hstore⟩ := index_file_body_store_ok parse
        embed st.store st.indexed st.skipped f hparse
      rw [hstore]
      refine ⟨storeOK_append_new _ _ _ hok (get_file_hash_none _ _ hgf) hrecs
        hrnd, ?_⟩
      intro r hr
      rcases List.mem_append.mp hr with h | h
      · exact Or.inl h
      · exact Or.inr (hrecs r h).1

/-- The whole indexer loop preserves the table invariant. -/
theorem index_files_storeOK (parse : String → String → List Chunk)
    (embed : String → Option Vec) (reindex : Bool)
    (hparse : ∀ pth c, ((parse pth c).map (fun ch => ch.start_line)).Nodup) :
    ∀ (files : List FileInput) (st : IndexState), StoreOK st.store →
      (reindex = true →
        (∀ r ∈ st.store, ∀ f2 ∈ files, r.file_path ≠ f2.rel_path) ∧
        (files.map (fun f => f.rel_path)).Nodup) →
      StoreOK (index_files parse embed reindex st files).store := by
  intro files
  induction files with
  | nil => intro st h _; exact h
  | cons f rest ih =>
    intro st hok hre
    rw [index_files]
    have hstep := index_file_step_storeOK parse embed reindex st f hok hparse
      (fun hr => fun r hrr => (hre hr).1 r hrr f (List.mem_cons_self _ _))
    apply ih _ hstep.1
    intro hr
    have hnd := (hre hr).2
    rw [List.map_cons, List.nodup_cons] at hnd
    constructor
    · intro r hrr f2 hf2
      rcases hstep.2 r hrr with hold | hpath
      · exact (hre hr).1 r hold f2 (List.mem_cons_of_mem _ hf2)
      · rw [hpath]
        intro hc
        apply hnd.1
        rw [hc]
        exact List.mem_map_of_mem _ hf2
    · exact hnd.2

/-- C6 counterexample: indexing a file holding two declarations on one
source line stores two rows with the same id `"t.rs:0"` — ids are not
unique within the table. -/
theorem C6_counterexample :
    ((run_index parse_cx (fun _ => some []) false [] [file_cx]).store.map
      (fun r => r.id)) = ["t.rs:0", "t.rs:0"] ∧
    ¬ ((run_index parse_cx (fun _ => some []) false [] [file_cx]).store.map
      (fun r => r.id)).Nodup := by
  constructor
  · decide
  · decide

/-- C6 (amended): after an index run from a table satisfying the id
invariant — every id is the row's path, a colon, and its decimal start line,
and ids are pairwise distinct — the invariant still holds, provided each
file's chunk list has pairwise-distinct start lines and the walked file
list has pairwise-distinct paths; sequences of runs follow by induction
(the empty table satisfies the invariant, and a `--reindex` run starts from
the dropped, empty table).  Rows of different paths can never collide
because decimal digits contain no colon. -/
theorem C6_id_format_and_uniqueness (parse : String → String → List Chunk)
    (embed : String → Option Vec) (reindex : Bool) (prev : StoreRows)
    (files : List FileInput) (hprev : StoreOK prev)
    (hparse : ∀ pth c, ((parse pth c).map (fun ch => ch.start_line)).Nodup)
    (hfiles : (files.map (fun f => f.rel_path)).Nodup) :
    (∀ r ∈ (run_index parse embed reindex prev files).store,
      r.id = r.file_path ++ ":" ++ Nat.repr r.start_line) ∧
    ((run_index parse embed reindex prev files).store.map
      (fun r => r.id)).Nodup := by
  unfold run_index
  apply index_files_storeOK parse embed reindex hparse files
  · cases reindex with
    | true => exact ⟨by simp, List.nodup_nil⟩
    | false => exact hprev
  · intro hr
    constructor
    · intro r hrr
      rw [hr] at hrr
      dsimp only at hrr
      simp at hrr
    · exact hfiles

/-- Witness for the amended C6: a run over one file whose two chunks start
on distinct lines yields distinct ids. -/
theorem C6_witness :
    ((run_index (fun _ _ =>
        [⟨"rust", "a", "fn a() {}", 0, 0, "function_item", none⟩,
         ⟨"rust", "b", "fn b() {}", 1, 1, "function_item", none⟩])
      (fun _ => some []) false [] [⟨"t.rs", "h0", some "x"⟩]).store.map
      (fun r => r.id)).Nodup :=
  (C6_id_format_and_uniqueness _ _ false [] _ ⟨by simp, List.nodup_nil⟩
    (fun _ _ => by decide) (by decide)).2
